import Mathlib

/-!
Verification of the feed-ingestion engine (templates/creator/scripts/sync-posts.ts)
and the fleet orchestrator (templates/index/scripts/sync-all-subrepos.ts).

The TypeScript code is shallowly embedded: strings are Lean `String`s /
`List Char`s, JavaScript truthiness of strings is modelled explicitly
(the empty string is falsy), `??` and `||` on optional strings are the
helpers `jsNullish` and `jsOr`, and the file-system side effects of the
sync run are modelled as a pure state (`SyncState`) threaded through the
item loops.

The WHATWG `URL` class used by `normalizePostUrl` is embedded as a small
hierarchical-URL model (`URLRec` together with `parseAbsolute`,
`resolveAgainst` and `serializeURL`).  The model covers scheme://host
URLs, relative references (network-relative `//h/p`, absolute-path,
query-only, fragment-only and merged relative paths) and the fallback
base; like the real class it strips tab/CR/LF anywhere in the input and
parses the base URL first.  Deliberate restrictions of the model, chosen
so that every divergence is towards `none` (the "unparseable" branch):
percent-encoding is not modelled (inputs still containing whitespace
after tab/CR/LF removal are treated as unparseable instead of encoded),
non-hierarchical (opaque-path) URLs such as mailto: are treated as
unparseable, dot-segment removal, host canonicalisation and default-port
elision are not performed, and backslashes are not treated as slashes.
-/

/-- Whitespace set used by the embedding for JavaScript string.trim(). -/
def isJsWS (c : Char) : Bool :=
  c = ' ' || c = '\t' || c = '\n' || c = '\r' || c = '\x0b' || c = '\x0c'

/-- Trim the modelled whitespace from both ends of a character list. -/
def trimList (l : List Char) : List Char :=
  ((l.dropWhile isJsWS).reverse.dropWhile isJsWS).reverse

/-- Embedding of JavaScript url.trim(). -/
def jsTrim (s : String) : String :=
  String.mk (trimList s.toList)

/-- Embedding of the JavaScript nullish-coalescing operator a ?? b on optional strings. -/
def jsNullish (a b : Option String) : Option String :=
  match a with
  | some s => some s
  | none => b

/-- Truthiness coercion: a present but empty string is falsy in JavaScript. -/
def jsStr (a : Option String) : Option String :=
  match a with
  | some s => if s = "" then none else some s
  | none => none

/-- Embedding of the JavaScript or operator a || b on optional strings (empty string is falsy). -/
def jsOr (a b : Option String) : Option String :=
  match jsStr a with
  | some s => some s
  | none => jsStr b

/-- A parsed hierarchical URL: scheme://host path ?query #fragment.
The query and fragment are stored without their leading separator;
`none` means the component is absent. -/
structure URLRec where
  scheme : List Char
  host : List Char
  path : List Char
  query : Option (List Char)
  frag : Option (List Char)
deriving DecidableEq

/-- Serialization of the URL model (the toString of the URL class). -/
def serializeURL (u : URLRec) : List Char :=
  u.scheme ++ (':' :: '/' :: '/' :: u.host) ++ u.path ++
    (match u.query with | none => [] | some q => '?' :: q) ++
    (match u.frag with | none => [] | some f => '#' :: f)

/-- Characters allowed in a URL scheme. -/
def isSchemeChar (c : Char) : Bool :=
  c.isAlpha || c.isDigit || c = '+' || c = '-' || c = '.'

/-- Characters that terminate the host component. -/
def isHostEnd (c : Char) : Bool :=
  c = '/' || c = '?' || c = '#'

/-- Characters that may appear in a path (everything but the query/fragment separators). -/
def notPQ (c : Char) : Bool :=
  c ≠ '?' && c ≠ '#'

/-- Parse the query/fragment tail that follows the path of a URL. -/
def finishPQ (sch host path rest : List Char) : Option URLRec :=
  if rest.take 1 = ['?'] then
    let r2 := rest.drop 1
    let q := r2.takeWhile (fun c => c ≠ '#')
    let rf := r2.dropWhile (fun c => c ≠ '#')
    if rf.take 1 = ['#'] then some ⟨sch, host, path, some q, some (rf.drop 1)⟩
    else some ⟨sch, host, path, some q, none⟩
  else if rest.take 1 = ['#'] then some ⟨sch, host, path, none, some (rest.drop 1)⟩
  else some ⟨sch, host, path, none, none⟩

/-- Parse host, path, query and fragment after the scheme:// prefix. -/
def parseHostRest (sch r : List Char) : Option URLRec :=
  let host := r.takeWhile (fun c => !isHostEnd c)
  let rest3 := r.dropWhile (fun c => !isHostEnd c)
  if host = [] then none
  else if rest3.take 1 = ['/'] then
    finishPQ sch host (rest3.takeWhile notPQ) (rest3.dropWhile notPQ)
  else finishPQ sch host ['/'] rest3

/-- Parse an absolute hierarchical URL of the form scheme://host[/path][?query][#fragment]. -/
def parseAbsolute (l : List Char) : Option URLRec :=
  let sch := l.takeWhile isSchemeChar
  let rest := l.dropWhile isSchemeChar
  if sch ≠ [] ∧ (sch.headD ' ').isAlpha = true ∧ rest.take 3 = [':', '/', '/'] then
    parseHostRest sch (rest.drop 3)
  else none

/-- Remove tab, LF and CR anywhere in the input, as the URL parser does. -/
def stripCtl (l : List Char) : List Char :=
  l.filter (fun c => c ≠ '\t' && c ≠ '\n' && c ≠ '\r')

/-- Parse a string as an absolute URL (whitespace left after control-character
removal makes the input unparseable in this model). -/
def parseURLString (s : String) : Option URLRec :=
  let l := stripCtl s.toList
  if l.any isJsWS then none else parseAbsolute l

/-- The base-directory prefix of a path: everything up to and including the last slash. -/
def dropLastSeg (p : List Char) : List Char :=
  (p.reverse.dropWhile (fun c => c ≠ '/')).reverse

/-- Resolve a relative path reference against a base URL by merging paths. -/
def relPath (bu : URLRec) (l : List Char) : Option URLRec :=
  finishPQ bu.scheme bu.host (dropLastSeg bu.path ++ l.takeWhile notPQ) (l.dropWhile notPQ)

/-- Resolve a relative reference against a parsed base URL. -/
def resolveAgainst (bu : URLRec) (l : List Char) : Option URLRec :=
  if l = [] then some { bu with frag := none }
  else if l.take 2 = ['/', '/'] then parseHostRest bu.scheme (l.drop 2)
  else if l.take 1 = ['/'] then
    finishPQ bu.scheme bu.host (l.takeWhile notPQ) (l.dropWhile notPQ)
  else if l.take 1 = ['?'] then
    let r2 := l.drop 1
    let q := r2.takeWhile (fun c => c ≠ '#')
    let rf := r2.dropWhile (fun c => c ≠ '#')
    if rf.take 1 = ['#'] then some { bu with query := some q, frag := some (rf.drop 1) }
    else some { bu with query := some q, frag := none }
  else if l.take 1 = ['#'] then some { bu with frag := some (l.drop 1) }
  else if l.takeWhile isSchemeChar ≠ [] ∧ (l.dropWhile isSchemeChar).take 1 = [':'] then none
  else relPath bu l

/-- The base string actually used: a missing or falsy (empty) base falls back
to the hard-coded https://example.com. -/
def baseStrOf (base : Option String) : String :=
  match base with
  | some b => if b = "" then "https://example.com" else b
  | none => "https://example.com"

/-- Embedding of new URL(url, base || a fallback): the base is parsed first
(an unparseable base fails the whole construction), then the input is parsed
as absolute or resolved as a relative reference. -/
def resolveURL (s : String) (base : Option String) : Option URLRec :=
  match parseURLString (baseStrOf base) with
  | none => none
  | some bu =>
    let l := stripCtl s.toList
    if l.any isJsWS then none
    else match parseAbsolute l with
      | some u => some u
      | none => resolveAgainst bu l

/-- Strip one trailing slash from a pathname, falling back to the root path:
the embedding of pathname.replace with a trailing-slash pattern followed by || "/". -/
def normSlash (p : List Char) : List Char :=
  let q := if p.getLast? = some '/' then p.dropLast else p
  if q = [] then ['/'] else q

/-- Setting url.search to the empty string removes the query altogether. -/
def normQuery (q : Option (List Char)) : Option (List Char) :=
  match q with
  | some [] => none
  | x => x

/-- normalizePostUrl from sync-posts.ts: resolve against the base (or the
hard-coded fallback https://example.com), drop the fragment, keep a nonempty
query, strip one trailing slash unless the path is the root, and return the
trimmed original string when URL construction fails. -/
def normalizePostUrl (url : String) (base : Option String) : String :=
  match resolveURL (jsTrim url) base with
  | none => jsTrim url
  | some u =>
    String.mk (serializeURL { u with frag := none, path := normSlash u.path, query := normQuery u.query })

/-- A feed item as surfaced by rss-parser, with the custom content:encoded
field mapped to contentEncoded; every field may be absent. -/
structure RssItem where
  title : Option String := none
  link : Option String := none
  guid : Option String := none
  pubDate : Option String := none
  updated : Option String := none
  content : Option String := none
  contentEncoded : Option String := none
  contentSnippet : Option String := none
  summary : Option String := none
  description : Option String := none
deriving DecidableEq

/-- getItemContent from sync-posts.ts: nullish-chain through
content, contentEncoded, contentSnippet, summary, description,
then replace a missing or empty result by the literal fallback. -/
def getItemContent (item : RssItem) : String :=
  let raw := (jsNullish item.content (jsNullish item.contentEncoded
    (jsNullish item.contentSnippet (jsNullish item.summary item.description)))).getD ""
  if raw = "" then "See link for full content." else raw

/-- A calendar date, the slice of the JavaScript Date value the sync script uses. -/
structure JSDate where
  year : Nat
  month : Nat
  day : Nat
deriving DecidableEq

/-- Days in a month (proleptic Gregorian), for date-string validation. -/
def daysInMonth (y m : Nat) : Nat :=
  if m = 1 ∨ m = 3 ∨ m = 5 ∨ m = 7 ∨ m = 8 ∨ m = 10 ∨ m = 12 then 31
  else if m = 4 ∨ m = 6 ∨ m = 9 ∨ m = 11 then 30
  else if (y % 4 = 0 ∧ y % 100 ≠ 0) ∨ y % 400 = 0 then 29
  else 28

/-- Numeric value of a decimal digit character. -/
def digitVal (c : Char) : Nat := c.toNat - 48

/-- Embedding of new Date(raw) restricted to ISO calendar-date strings
YYYY-MM-DD (the slice of the JavaScript date parser the claims exercise);
every other string is treated as an invalid date. -/
def jsParseDate (s : String) : Option JSDate :=
  match s.toList with
  | [y1, y2, y3, y4, '-', m1, m2, '-', d1, d2] =>
    if y1.isDigit ∧ y2.isDigit ∧ y3.isDigit ∧ y4.isDigit ∧
        m1.isDigit ∧ m2.isDigit ∧ d1.isDigit ∧ d2.isDigit then
      let y := ((digitVal y1 * 10 + digitVal y2) * 10 + digitVal y3) * 10 + digitVal y4
      let m := digitVal m1 * 10 + digitVal m2
      let d := digitVal d1 * 10 + digitVal d2
      if 1 ≤ m ∧ m ≤ 12 ∧ 1 ≤ d ∧ d ≤ daysInMonth y m then some ⟨y, m, d⟩ else none
    else none
  | _ => none

/-- getItemPubDate from sync-posts.ts: first present of pubDate/updated
(?? keeps an empty string, which the truthiness test then rejects), parsed
with an invalid-date guard. -/
def getItemPubDate (item : RssItem) : Option JSDate :=
  match jsNullish item.pubDate item.updated with
  | none => none
  | some raw => if raw = "" then none else jsParseDate raw

/-- Decimal digit character for a value below ten. -/
def decChar (d : Nat) : Char :=
  match d with
  | 0 => '0' | 1 => '1' | 2 => '2' | 3 => '3' | 4 => '4'
  | 5 => '5' | 6 => '6' | 7 => '7' | 8 => '8' | _ => '9'

/-- Fuelled decimal rendering of a natural number (most significant digit first). -/
def decStrAux : Nat → Nat → List Char
  | 0, _ => []
  | fuel + 1, n => if n < 10 then [decChar n] else decStrAux fuel (n / 10) ++ [decChar (n % 10)]

/-- Decimal rendering of a natural number, the embedding of JavaScript
number-to-string interpolation for the nonnegative integers this code produces. -/
def decStr (n : Nat) : String :=
  String.mk (decStrAux (n + 1) n)

/-- Decimal value of a digit list, inverse of decStrAux. -/
def decVal (l : List Char) : Nat :=
  l.foldl (fun a c => 10 * a + digitVal c) 0

/-- Left-pad a decimal rendering to two digits. -/
def pad2 (n : Nat) : String :=
  if n < 10 then "0" ++ decStr n else decStr n

/-- Left-pad a decimal rendering to four digits. -/
def pad4 (n : Nat) : String :=
  if n < 10 then "000" ++ decStr n
  else if n < 100 then "00" ++ decStr n
  else if n < 1000 then "0" ++ decStr n
  else decStr n

/-- formatDate from sync-posts.ts: the date part of toISOString. -/
def formatDate (d : JSDate) : String :=
  pad4 d.year ++ "-" ++ pad2 d.month ++ "-" ++ pad2 d.day

/-- The full toISOString rendering of a date-only value (UTC midnight). -/
def isoOfDate (d : JSDate) : String :=
  formatDate d ++ "T00:00:00.000Z"

/-- Characters kept by the slug filter: lowercase letters, digits and hyphen. -/
def isSlugChar (c : Char) : Bool :=
  ('a' ≤ c && c ≤ 'z') || c.isDigit || c = '-'

/-- Collapse each maximal run of characters matched by p into one replacement
character (the embedding of a global run-replacing regex substitution). -/
def collapseRunsGo (p : Char → Bool) (r : Char) (inRun : Bool) : List Char → List Char
  | [] => []
  | c :: cs =>
    if p c then
      if inRun then collapseRunsGo p r true cs else r :: collapseRunsGo p r true cs
    else c :: collapseRunsGo p r false cs

/-- Collapse maximal p-runs into the single character r. -/
def collapseRuns (p : Char → Bool) (r : Char) (l : List Char) : List Char :=
  collapseRunsGo p r false l

/-- Drop one leading hyphen if present. -/
def dropLeadDash : List Char → List Char
  | '-' :: r => r
  | l => l

/-- Drop one leading and one trailing hyphen (the anchored edge-dash substitution). -/
def stripEdgeDash (l : List Char) : List Char :=
  (dropLeadDash (dropLeadDash l).reverse).reverse

/-- slugify from sync-posts.ts: trim, lowercase, whitespace runs to hyphens,
drop non-slug characters, collapse hyphen runs, strip edge hyphens, cap at 80
characters, defaulting to post when empty. -/
def slugify (title : String) : String :=
  let l := trimList title.toList
  let l := l.map Char.toLower
  let l := collapseRuns isJsWS '-' l
  let l := l.filter isSlugChar
  let l := collapseRuns (fun c => c = '-') '-' l
  let l := stripEdgeDash l
  let l := l.take 80
  if l = [] then "post" else String.mk l

/-- Does the second list contain the first as a contiguous run (the embedding
of the JavaScript includes test on strings)? -/
def hasSub (needle : List Char) : List Char → Bool
  | [] => needle.isEmpty
  | c :: cs => needle.isPrefixOf (c :: cs) || hasSub needle cs

/-- The continuation of a path after its first post-path marker /p/, when present. -/
def afterNeedle (needle : List Char) : List Char → Option (List Char)
  | [] => if needle.isEmpty then some [] else none
  | c :: cs =>
    if needle.isPrefixOf (c :: cs) then some ((c :: cs).drop needle.length)
    else afterNeedle needle cs

/-- slugFromSubstackPath from sync-posts.ts: parse the URL, match the first
/p/segment of the pathname and slugify that segment; fall back to slugifying
the whole input when the URL does not parse or has no such segment. -/
def slugFromSubstackPath (url : String) : String :=
  match parseURLString url with
  | some u =>
    match afterNeedle ['/', 'p', '/'] u.path with
    | some rest =>
      let seg := rest.takeWhile (fun c => c ≠ '/')
      if seg = [] then slugify url else slugify (String.mk seg)
    | none => slugify url
  | none => slugify url

/-- The suffixed collision-avoidance key base-n. -/
def suffixed (base : String) (n : Nat) : String :=
  base ++ "-" ++ decStr n

/-- The while loop of the collision policy: starting at suffix n, advance while
the suffixed key is taken, within the given fuel. -/
def allocLoop (seen : List String) (base : String) : Nat → Nat → Nat
  | 0, n => n
  | fuel + 1, n => if seen.contains (suffixed base n) then allocLoop seen base fuel (n + 1) else n

/-- Storage-key allocation from sync-posts.ts: the base key when free,
otherwise the base with the smallest unused numeric suffix. -/
def allocName (seen : List String) (base : String) : String :=
  if seen.contains base then suffixed base (allocLoop seen base (seen.length + 1) 1) else base

/-- The JSON metadata document persisted for one post (the PostRecord). -/
structure PostMeta where
  title : String
  link : String
  published : Option String
  updated : Option String
  source : String
  feedUrl : String
  description : Option String
  guid : String
  supplement : Bool := false
deriving DecidableEq

/-- One successfully fetched and parsed feed: its configured URL, its own
channel link, and its items.  Feeds whose fetch or parse fails are caught and
skipped by the script, so they contribute nothing and are not modelled. -/
structure Feed where
  url : String
  link : Option String := none
  items : List RssItem := []
deriving DecidableEq

/-- The input of one sync invocation: fetched feeds, the creator configuration
fields the script reads, and the post-URL candidates extracted from the archive
page HTML (none when the archive fetch failed). -/
structure SyncInput where
  feedUrls : List String := []
  feeds : List Feed := []
  blogUrl : Option String := none
  supplementStrategy : Option String := none
  archCandidates : Option (List String) := none
deriving DecidableEq

/-- The mutable state of one sync run: the two dedup sets and the pair files
written so far (file writes are modelled by appending the storage key and its
metadata record; the markdown body adds no information for the claims). -/
structure SyncState where
  seenUrls : List String
  seenFilenames : List String
  files : List (String × PostMeta)
  writtenRss : Nat
  writtenArchive : Nat
deriving DecidableEq

/-- Add to a JavaScript Set modelled as a duplicate-free-by-construction list. -/
def addSet (l : List String) (x : String) : List String :=
  if l.contains x then l else l ++ [x]

/-- Hydrate the seen-URL set from the metadata files on disk: each record with
a truthy link field contributes its link, renormalized with no base. -/
def hydrateUrls (disk : List (String × PostMeta)) : List String :=
  disk.foldl (fun acc f => if f.2.link = "" then acc else addSet acc (normalizePostUrl f.2.link none)) []

/-- Hydrate the seen-filename set from the markdown file basenames on disk. -/
def hydrateNames (disk : List (String × PostMeta)) : List String :=
  disk.foldl (fun acc f => addSet acc f.1) []

/-- The truncated description field: first non-nullish of
contentSnippet/summary/description, cut to 500 characters, empty dropped. -/
def descOf (item : RssItem) : Option String :=
  match jsNullish item.contentSnippet (jsNullish item.summary item.description) with
  | none => none
  | some s =>
    let t := String.mk (s.toList.take 500)
    if t = "" then none else some t

/-- The title used for an item: falsy titles become Untitled, then trim. -/
def titleOf (item : RssItem) : String :=
  jsTrim ((jsStr item.title).getD "Untitled")

/-- The date token used in the storage key of an item. -/
def dateStrOf (item : RssItem) : String :=
  match getItemPubDate item with
  | some d => formatDate d
  | none => "unknown"

/-- The metadata record persisted for an accepted feed item. -/
def metaOf (source feedUrl link : String) (item : RssItem) : PostMeta :=
  { title := titleOf item
    link := link
    published := (getItemPubDate item).map isoOfDate
    updated := (getItemPubDate item).map isoOfDate
    source := source
    feedUrl := feedUrl
    description := descOf item
    guid := (jsStr item.guid).getD link
    supplement := false }

/-- Acceptance of a new feed item: resolve the date, allocate a storage key
against the live filename set, persist the pair and mark URL and key seen. -/
def acceptItem (source feedUrl : String) (st : SyncState) (link : String) (item : RssItem) :
    SyncState :=
  let name := allocName st.seenFilenames (dateStrOf item ++ "_" ++ slugify (titleOf item))
  { seenUrls := addSet st.seenUrls link
    seenFilenames := addSet st.seenFilenames name
    files := st.files ++ [(name, metaOf source feedUrl link item)]
    writtenRss := st.writtenRss + 1
    writtenArchive := st.writtenArchive }

/-- Dedup test and acceptance for an item with a usable raw link. -/
def processLinked (source feedUrl feedLink : String) (st : SyncState) (rawLink : String)
    (item : RssItem) : SyncState :=
  let link := normalizePostUrl rawLink (some feedLink)
  if st.seenUrls.contains link then st
  else acceptItem source feedUrl st link item

/-- Processing of a single feed item in the RSS phase: skip when no usable
link or when the normalized link is already seen; otherwise resolve the date,
allocate a storage key and persist the record, marking URL and key seen. -/
def processItem (source feedUrl feedLink : String) (st : SyncState) (item : RssItem) : SyncState :=
  match jsOr item.link item.guid with
  | none => st
  | some rawLink => processLinked source feedUrl feedLink st rawLink item

/-- The feed-level link used as the base URL for resolving item links. -/
def feedLinkOf (feed : Feed) : String :=
  match jsStr feed.link with
  | some l => normalizePostUrl l (some feed.url)
  | none => feed.url

/-- Process all items of one feed. -/
def processFeed (source : String) (st : SyncState) (feed : Feed) : SyncState :=
  feed.items.foldl (processItem source feed.url (feedLinkOf feed)) st

/-- The source kind for the run, derived from the raw blogUrl. -/
def sourceOf (inp : SyncInput) : String :=
  if hasSub "substack.com".toList (inp.blogUrl.getD "").toList then "substack" else "blog"

/-- The RSS phase: hydrate both dedup sets from disk, then fold every feed. -/
def rssPhase (inp : SyncInput) (disk : List (String × PostMeta)) : SyncState :=
  inp.feeds.foldl (processFeed (sourceOf inp))
    ⟨hydrateUrls disk, hydrateNames disk, [], 0, 0⟩

/-- The stub metadata record persisted for an archive-crawl candidate. -/
def stubMetaOf (feedUrl0 normalized : String) : PostMeta :=
  { title := "Untitled"
    link := normalized
    published := none
    updated := none
    source := "substack"
    feedUrl := feedUrl0
    description := none
    guid := normalized
    supplement := true }

/-- Acceptance of a new archive-crawl candidate: allocate a key under the
unknown date token and persist the stub pair. -/
def acceptCand (feedUrl0 : String) (st : SyncState) (normalized cand : String) : SyncState :=
  let name := allocName st.seenFilenames ("unknown_" ++ slugFromSubstackPath cand)
  { seenUrls := addSet st.seenUrls normalized
    seenFilenames := addSet st.seenFilenames name
    files := st.files ++ [(name, stubMetaOf feedUrl0 normalized)]
    writtenRss := st.writtenRss
    writtenArchive := st.writtenArchive + 1 }

/-- Processing of one archive-crawl candidate URL: skip when already seen,
otherwise persist a stub record under the unknown date token. -/
def processCand (blogUrl feedUrl0 : String) (st : SyncState) (cand : String) : SyncState :=
  let normalized := normalizePostUrl cand (some blogUrl)
  if st.seenUrls.contains normalized then st
  else acceptCand feedUrl0 st normalized cand

/-- The trimmed blog URL used by the archive-supplement phase. -/
def blogUrlOf (inp : SyncInput) : String :=
  jsTrim (inp.blogUrl.getD "")

/-- Whether the archive-supplement phase runs: the blog is hosted on the
known platform, the strategy (defaulted from the blog URL) selects the archive
crawl, and the archive fetch succeeded. -/
def archActive (inp : SyncInput) : Bool :=
  let isSub := hasSub "substack.com".toList (blogUrlOf inp).toList
  let strategy := inp.supplementStrategy.getD (if isSub then "substack_archive" else "none")
  isSub && strategy = "substack_archive" && inp.archCandidates.isSome

/-- One full sync run (main of sync-posts.ts): the RSS phase over every feed
followed, when active, by the archive-supplement phase over the extracted
candidates, both deduplicating through the same in-memory sets. -/
def runSync (inp : SyncInput) (disk : List (String × PostMeta)) : SyncState :=
  let st1 := rssPhase inp disk
  if archActive inp then
    (inp.archCandidates.getD []).foldl (processCand (blogUrlOf inp) (inp.feedUrls.headD "")) st1
  else st1

/-- The per-target state of a fleet sweep: the current failure records,
the success count, and the invocation log (one entry per subprocess run). -/
structure OrchState where
  failed : List (String × String)
  ok : Nat
  log : List String
deriving DecidableEq

/-- One attempt of one target (the attempt helper of sync-all-subrepos.ts):
the target's ingestion behaviour is the oracle beh (argument: how many times
that target ran before), and errOf gives the captured error output of a
failing run. -/
def attemptStep (beh : String → Nat → Bool) (errOf : String → Nat → String)
    (st : OrchState) (slug : String) : OrchState :=
  let k := st.log.count slug
  if beh slug k then
    { failed := st.failed, ok := st.ok + 1, log := st.log ++ [slug] }
  else
    { failed := st.failed ++ [(slug, errOf slug k)], ok := st.ok, log := st.log ++ [slug] }

/-- Attempt every target of one round in order. -/
def roundFold (beh : String → Nat → Bool) (errOf : String → Nat → String)
    (slugs : List String) (st : OrchState) : OrchState :=
  slugs.foldl (attemptStep beh errOf) st

/-- Rounds 2..retries of the sweep: stop early when nothing is failed,
otherwise splice out the failure list and re-attempt exactly those targets. -/
def sweepRounds (beh : String → Nat → Bool) (errOf : String → Nat → String) :
    Nat → OrchState → OrchState
  | 0, st => st
  | r + 1, st =>
    if st.failed.isEmpty then st
    else sweepRounds beh errOf r
      (roundFold beh errOf (st.failed.map Prod.fst) { failed := [], ok := st.ok, log := st.log })

/-- A full fleet sweep (main of sync-all-subrepos.ts): round 1 over all
discovered targets, then up to retries - 1 retry rounds over the failures. -/
def sweep (beh : String → Nat → Bool) (errOf : String → Nat → String)
    (targets : List String) (retries : Nat) : OrchState :=
  sweepRounds beh errOf (retries - 1) (roundFold beh errOf targets ⟨[], 0, []⟩)

/-- The failure manifest after a sweep: overwritten with one failing slug per
line when any target remains failed, otherwise the file is not touched and
keeps its previous content (none models an absent file). -/
def manifestAfter (prev : Option String) (st : OrchState) : Option String :=
  if st.failed.length > 0 then
    some (String.intercalate "\n" (st.failed.map Prod.fst) ++ "\n")
  else prev

/-! ### Generic list and string lemmas -/

/-- No modelled whitespace anywhere in the list. -/
abbrev noWS (l : List Char) : Prop := ∀ c ∈ l, isJsWS c = false

/-- Well-formed scheme component. -/
abbrev wfScheme (s : List Char) : Prop :=
  s ≠ [] ∧ (s.headD ' ').isAlpha = true ∧ ∀ c ∈ s, isSchemeChar c = true ∧ isJsWS c = false

/-- Well-formed host component. -/
abbrev wfHost (h : List Char) : Prop :=
  h ≠ [] ∧ ∀ c ∈ h, isHostEnd c = false ∧ isJsWS c = false

/-- Well-formed path component. -/
abbrev wfPath (p : List Char) : Prop :=
  p ≠ [] ∧ p.headD ' ' = '/' ∧ ∀ c ∈ p, notPQ c = true ∧ isJsWS c = false

/-- Well-formed query component. -/
abbrev wfQuery : Option (List Char) → Prop
  | none => True
  | some q => ∀ c ∈ q, c ≠ '#' ∧ isJsWS c = false

/-- Well-formed URL record (the fragment is unconstrained: the normalizer drops it). -/
abbrev wfURL (u : URLRec) : Prop :=
  wfScheme u.scheme ∧ wfHost u.host ∧ wfPath u.path ∧ wfQuery u.query

/-- The serialized query tail: nothing, or a question mark and the query. -/
def qTail (q : Option (List Char)) : List Char :=
  match q with
  | none => []
  | some qv => '?' :: qv

/-- Whether one trailing-slash strip already stabilizes the resolved path of
the input (false exactly for paths ending in a doubled slash, which lose one
slash per normalization pass). -/
def slashStable (url : String) (base : Option String) : Bool :=
  match resolveURL (jsTrim url) base with
  | none => true
  | some r => normSlash (normSlash r.path) == normSlash r.path

/-- The accumulator-passing form of the URL-hydration fold. -/
def hydrateUrlsAux (acc : List String) (disk : List (String × PostMeta)) : List String :=
  disk.foldl (fun a f => if f.2.link = "" then a else addSet a (normalizePostUrl f.2.link none)) acc

/-- The accumulator-passing form of the filename-hydration fold. -/
def hydrateNamesAux (acc : List String) (disk : List (String × PostMeta)) : List String :=
  disk.foldl (fun a f => addSet a f.1) acc

/-- Run invariant of the sync state relative to the hydrated disk: disk
names are tracked in the filename set, every written link and key is tracked
in its dedup set, written links and keys are duplicate-free, no written key
collides with a disk key, and every seen URL is accounted for by the disk
hydration or by a written file. -/
abbrev SyncInv (disk : List (String × PostMeta)) (st : SyncState) : Prop :=
  (∀ x ∈ hydrateNames disk, x ∈ st.seenFilenames) ∧
  (∀ f ∈ st.files, f.2.link ∈ st.seenUrls) ∧
  ((st.files.map (fun f => f.2.link)).Nodup) ∧
  ((st.files.map Prod.fst).Nodup) ∧
  (∀ f ∈ st.files, f.1 ∉ disk.map Prod.fst) ∧
  (∀ f ∈ st.files, f.1 ∈ st.seenFilenames) ∧
  (∀ x ∈ st.seenUrls, x ∈ hydrateUrls disk ∨ ∃ f ∈ st.files, f.2.link = x)

/-- A feed item with title Hello and date 2024-01-01 at the given link. -/
def helloItem (l : String) : RssItem :=
  { title := some "Hello", link := some l, pubDate := some "2024-01-01" }

/-- A one-feed input holding two distinct items that resolve to the same
date token and title slug. -/
def twoHelloInput : SyncInput :=
  { feedUrls := ["https://x.com/feed"]
    feeds := [{ url := "https://x.com/feed", link := some "https://x.com",
                items := [helloItem "https://x.com/p/a", helloItem "https://x.com/p/b"] }] }

/-- A substack-hosted input whose feed item and first archive candidate
normalize to the same URL. -/
def substackInput : SyncInput :=
  { feedUrls := ["https://y.substack.com/feed"]
    feeds := [{ url := "https://y.substack.com/feed", link := some "https://y.substack.com",
                items := [{ title := some "P", link := some "https://y.substack.com/p/one",
                            pubDate := some "2024-01-01" }] }]
    blogUrl := some "https://y.substack.com"
    archCandidates := some ["https://y.substack.com/p/one", "https://y.substack.com/p/two"] }

/-- A persisted link is stable when it is truthy and a fixed point of
base-less renormalization: exactly the condition under which dedup
hydration reproduces it. -/
def stableStr (l : String) : Bool :=
  (l != "") && (normalizePostUrl l none == l)

/-- Stability of the link a feed item would persist. -/
def itemStable (feedLink : String) (it : RssItem) : Bool :=
  match jsOr it.link it.guid with
  | none => true
  | some r => stableStr (normalizePostUrl r (some feedLink))

/-- Stability of every item of a feed. -/
def feedStable (f : Feed) : Bool :=
  f.items.all (itemStable (feedLinkOf f))

/-- Stability of every archive candidate, when the archive phase runs. -/
def candsStable (inp : SyncInput) : Bool :=
  !(archActive inp) ||
    (inp.archCandidates.getD []).all
      (fun c => stableStr (normalizePostUrl c (some (blogUrlOf inp))))

/-- Stability of the whole sync input. -/
def inputStable (inp : SyncInput) : Bool :=
  inp.feeds.all feedStable && candsStable inp

abbrev filesStable (st : SyncState) : Prop :=
  ∀ f ∈ st.files, stableStr f.2.link = true

/-- C1 counterexample input: the feed channel link https:// is truthy but
unparseable, so new URL(rawLink, feedLink) throws and the item link /p/1 is
persisted un-normalized; hydration renormalizes it against the example.com
fallback, so the stored link no longer matches and the item is re-ingested. -/
def badFeedInput : SyncInput :=
  { feedUrls := ["https://f.example/feed"]
    feeds := [{ url := "https://f.example/feed", link := some "https://",
                items := [{ title := some "T", link := some "/p/1" }] }] }

theorem toList_mk (l : List Char) : (String.mk l).toList = l := rfl

theorem dropWhile_self (p : α → Bool) (l : List α) :
    (l.dropWhile p).dropWhile p = l.dropWhile p := by
  induction l with
  | nil => rfl
  | cons a t ih =>
    by_cases h : p a
    · simp [List.dropWhile_cons_of_pos h, ih]
    · simp [List.dropWhile_cons_of_neg h]

theorem dropWhile_eq_self_of (p : α → Bool) (l : List α) (h : ∀ c ∈ l, p c = false) :
    l.dropWhile p = l := by
  cases l with
  | nil => rfl
  | cons a t =>
    have ha := h a (List.mem_cons_self a t)
    exact List.dropWhile_cons_of_neg (by simp [ha])

theorem dropWhile_head_eq (p : α → Bool) (l : List α) :
    l.dropWhile p = [] ∨ ∃ c cs, l.dropWhile p = c :: cs ∧ p c = false := by
  cases h : l.dropWhile p with
  | nil => exact Or.inl rfl
  | cons c cs =>
    refine Or.inr ⟨c, cs, rfl, ?_⟩
    have := List.head_dropWhile_not p l (by simp [h])
    simpa [h] using this

theorem trimList_subset (l : List Char) : trimList l ⊆ l := by
  intro c hc
  unfold trimList at hc
  rw [List.mem_reverse] at hc
  have h1 : c ∈ (l.dropWhile isJsWS).reverse := List.dropWhile_subset _ hc
  rw [List.mem_reverse] at h1
  exact List.dropWhile_subset _ h1

theorem rightTrim_keeps_left (p : Char → Bool) (l : List Char) (h : l.dropWhile p = l) :
    ((l.reverse.dropWhile p).reverse).dropWhile p = (l.reverse.dropWhile p).reverse := by
  obtain ⟨s, hs⟩ := List.dropWhile_suffix (l := l.reverse) p
  cases hrev : (l.reverse.dropWhile p).reverse with
  | nil => rfl
  | cons c cs =>
    have hl : l = c :: (cs ++ s.reverse) := by
      have h2 := congrArg List.reverse hs
      rw [List.reverse_append, List.reverse_reverse] at h2
      rw [hrev] at h2
      simpa using h2.symm
    have hpc : p c = false := by
      cases hb : p c
      · rfl
      · exfalso
        have hdrop := h
        rw [hl, List.dropWhile_cons_of_pos hb] at hdrop
        have hlen := congrArg List.length hdrop
        have hle : ((cs ++ s.reverse).dropWhile p).length ≤ (cs ++ s.reverse).length :=
          (List.dropWhile_sublist p).length_le
        rw [List.length_cons] at hlen
        omega
    exact List.dropWhile_cons_of_neg (by simp [hpc])

theorem trimList_drop_eq (l : List Char) : (trimList l).dropWhile isJsWS = trimList l := by
  unfold trimList
  exact rightTrim_keeps_left isJsWS (l.dropWhile isJsWS) (dropWhile_self isJsWS l)

theorem trimList_idem (l : List Char) : trimList (trimList l) = trimList l := by
  have h1 : trimList (trimList l) =
      (((trimList l).dropWhile isJsWS).reverse.dropWhile isJsWS).reverse := rfl
  rw [h1, trimList_drop_eq l]
  show (((l.dropWhile isJsWS).reverse.dropWhile isJsWS).reverse.reverse.dropWhile isJsWS).reverse
      = trimList l
  rw [List.reverse_reverse, dropWhile_self]
  rfl

theorem trimList_eq_self (l : List Char) (h : ∀ c ∈ l, isJsWS c = false) :
    trimList l = l := by
  unfold trimList
  rw [dropWhile_eq_self_of _ _ h, dropWhile_eq_self_of _ _ (by intro c hc; exact h c (by simpa using hc)), List.reverse_reverse]

theorem jsTrim_idem (s : String) : jsTrim (jsTrim s) = jsTrim s := by
  unfold jsTrim
  rw [toList_mk, trimList_idem]

/-! ### Decimal rendering: correctness and injectivity -/

theorem digitVal_decChar (d : Nat) (h : d < 10) : digitVal (decChar d) = d := by
  interval_cases d <;> decide

theorem decVal_append (a : List Char) (c : Char) :
    decVal (a ++ [c]) = 10 * decVal a + digitVal c := by
  unfold decVal
  rw [List.foldl_append]
  rfl

theorem decVal_decStrAux (fuel n : Nat) (h : n < fuel) :
    decVal (decStrAux fuel n) = n := by
  induction fuel generalizing n with
  | zero => omega
  | succ f ih =>
    unfold decStrAux
    by_cases h10 : n < 10
    · simp only [if_pos h10]
      show decVal [decChar n] = n
      unfold decVal
      simp [digitVal_decChar n h10]
    · simp only [if_neg h10]
      have hdiv : n / 10 < n := Nat.div_lt_self (by omega) (by omega)
      rw [decVal_append, ih (n / 10) (by omega), digitVal_decChar _ (Nat.mod_lt n (by omega))]
      omega

theorem decStr_inj (m n : Nat) (h : decStr m = decStr n) : m = n := by
  have hm : decVal (decStrAux (m + 1) m) = m := decVal_decStrAux _ _ (by omega)
  have hn : decVal (decStrAux (n + 1) n) = n := decVal_decStrAux _ _ (by omega)
  unfold decStr at h
  have : decStrAux (m + 1) m = decStrAux (n + 1) n := congrArg String.toList h
  rw [this] at hm
  omega

theorem suffixed_inj (base : String) (m n : Nat) (h : suffixed base m = suffixed base n) :
    m = n := by
  unfold suffixed at h
  have hdata := congrArg String.data h
  simp only [String.data_append, List.append_assoc] at hdata
  have h2 := List.append_cancel_left (List.append_cancel_left hdata)
  exact decStr_inj m n (String.ext h2)

/-! ### Collision-safe key allocation -/

theorem allocLoop_spec (seen : List String) (base : String) (fuel n0 : Nat)
    (h : ∃ m, n0 ≤ m ∧ m < n0 + fuel ∧ seen.contains (suffixed base m) = false) :
    seen.contains (suffixed base (allocLoop seen base fuel n0)) = false ∧
    n0 ≤ allocLoop seen base fuel n0 ∧
    ∀ m, n0 ≤ m → m < allocLoop seen base fuel n0 →
      seen.contains (suffixed base m) = true := by
  induction fuel generalizing n0 with
  | zero => obtain ⟨m, h1, h2, _⟩ := h; omega
  | succ f ih =>
    have hstep : allocLoop seen base (f + 1) n0 =
        if seen.contains (suffixed base n0) = true then allocLoop seen base f (n0 + 1)
        else n0 := rfl
    by_cases htaken : seen.contains (suffixed base n0) = true
    · rw [hstep, if_pos htaken]
      have hnext : ∃ m, n0 + 1 ≤ m ∧ m < n0 + 1 + f ∧
          seen.contains (suffixed base m) = false := by
        obtain ⟨m, h1, h2, h3⟩ := h
        refine ⟨m, ?_, by omega, h3⟩
        rcases Nat.eq_or_lt_of_le h1 with heq | hlt
        · subst heq
          rw [htaken] at h3
          cases h3
        · omega
      obtain ⟨r1, r2, r3⟩ := ih (n0 + 1) hnext
      refine ⟨r1, by omega, ?_⟩
      intro m hm1 hm2
      rcases Nat.eq_or_lt_of_le hm1 with heq | hlt
      · subst heq
        exact htaken
      · exact r3 m hlt hm2
    · rw [hstep, if_neg htaken]
      have hfree : seen.contains (suffixed base n0) = false := by
        simpa using htaken
      exact ⟨hfree, Nat.le_refl _, by omega⟩

theorem exists_free_suffix (seen : List String) (base : String) :
    ∃ m, 1 ≤ m ∧ m < 1 + (seen.length + 1) ∧
      seen.contains (suffixed base m) = false := by
  by_contra hall
  push_neg at hall
  have htaken : ∀ m, 1 ≤ m → m < seen.length + 2 → suffixed base m ∈ seen := by
    intro m h1 h2
    have := hall m h1 (by omega)
    have hne : seen.contains (suffixed base m) ≠ false := this
    rcases Bool.eq_false_or_eq_true (seen.contains (suffixed base m)) with ht | hf
    · simpa using ht
    · exact absurd hf hne
  set L := (List.range (seen.length + 1)).map (fun i => suffixed base (i + 1)) with hL
  have hlen : L.length = seen.length + 1 := by simp [hL]
  have hnodup : L.Nodup := by
    refine List.Nodup.map ?_ (List.nodup_range _)
    intro a b hab
    have := suffixed_inj base (a + 1) (b + 1) hab
    omega
  have hsub : L ⊆ seen := by
    intro x hx
    rw [hL, List.mem_map] at hx
    obtain ⟨i, hi, hix⟩ := hx
    rw [List.mem_range] at hi
    rw [← hix]
    exact htaken (i + 1) (by omega) (by omega)
  have hcard : L.length ≤ seen.length := by
    have h1 : L.toFinset.card = L.length := List.toFinset_card_of_nodup hnodup
    have h2 : L.toFinset ⊆ seen.toFinset := by
      intro x hx
      rw [List.mem_toFinset] at hx ⊢
      exact hsub hx
    have h3 := Finset.card_le_card h2
    have h4 : seen.toFinset.card ≤ seen.length := seen.toFinset_card_le
    omega
  omega

theorem allocName_step (seen : List String) (base : String) :
    allocName seen base =
      if seen.contains base = true then
        suffixed base (allocLoop seen base (seen.length + 1) 1)
      else base := rfl

theorem allocName_free (seen : List String) (base : String) :
    seen.contains (allocName seen base) = false := by
  by_cases h : seen.contains base = true
  · rw [allocName_step, if_pos h]
    exact (allocLoop_spec seen base (seen.length + 1) 1 (exists_free_suffix seen base)).1
  · rw [allocName_step, if_neg h]
    simpa using h

theorem allocName_least (seen : List String) (base : String)
    (h : seen.contains base = true) :
    ∃ n, 1 ≤ n ∧ allocName seen base = suffixed base n ∧
      seen.contains (suffixed base n) = false ∧
      ∀ m, 1 ≤ m → m < n → seen.contains (suffixed base m) = true := by
  obtain ⟨r1, r2, r3⟩ := allocLoop_spec seen base (seen.length + 1) 1 (exists_free_suffix seen base)
  refine ⟨allocLoop seen base (seen.length + 1) 1, r2, ?_, r1, r3⟩
  rw [allocName_step, if_pos h]

/-! ### Well-formedness of parsed URLs and the parse/serialize round trip -/

theorem takeWhile_split (p : α → Bool) (a b : List α)
    (ha : ∀ c ∈ a, p c = true)
    (hb : b = [] ∨ ∃ d ds, b = d :: ds ∧ p d = false) :
    (a ++ b).takeWhile p = a ∧ (a ++ b).dropWhile p = b := by
  constructor
  · rw [List.takeWhile_append_of_pos ha]
    rcases hb with rfl | ⟨d, ds, rfl, hd⟩
    · simp
    · rw [List.takeWhile_cons_of_neg (by simp [hd])]
      simp
  · rw [List.dropWhile_append_of_pos ha]
    rcases hb with rfl | ⟨d, ds, rfl, hd⟩
    · simp
    · rw [List.dropWhile_cons_of_neg (by simp [hd])]

theorem finishPQ_inv (sch host path rest : List Char) (u : URLRec)
    (h : finishPQ sch host path rest = some u) :
    u.scheme = sch ∧ u.host = host ∧ u.path = path ∧
      ∀ qv, u.query = some qv → ∀ c ∈ qv, c ≠ '#' ∧ c ∈ rest := by
  have hqmem : ∀ c ∈ (rest.drop 1).takeWhile (fun c => c ≠ '#'), c ≠ '#' ∧ c ∈ rest := by
    intro c hc
    have h1 := List.mem_takeWhile_imp hc
    have h2 : c ∈ rest.drop 1 := List.takeWhile_subset _ hc
    exact ⟨by simpa using h1, List.drop_subset 1 rest h2⟩
  unfold finishPQ at h
  by_cases h1 : rest.take 1 = ['?']
  · rw [if_pos h1] at h
    by_cases h2 : ((rest.drop 1).dropWhile (fun c => c ≠ '#')).take 1 = ['#']
    · rw [if_pos h2] at h
      cases h
      refine ⟨rfl, rfl, rfl, ?_⟩
      intro qv hqv c hc
      cases hqv
      exact hqmem c hc
    · rw [if_neg h2] at h
      cases h
      refine ⟨rfl, rfl, rfl, ?_⟩
      intro qv hqv c hc
      cases hqv
      exact hqmem c hc
  · rw [if_neg h1] at h
    by_cases h2 : rest.take 1 = ['#']
    · rw [if_pos h2] at h
      cases h
      exact ⟨rfl, rfl, rfl, by intro qv hqv; cases hqv⟩
    · rw [if_neg h2] at h
      cases h
      exact ⟨rfl, rfl, rfl, by intro qv hqv; cases hqv⟩

theorem take_one_head (l : List Char) (c : Char) (h : l.take 1 = [c]) :
    ∃ t, l = c :: t := by
  cases l with
  | nil => cases h
  | cons a t =>
    simp only [List.take_succ_cons, List.take_zero] at h
    cases h
    exact ⟨t, rfl⟩

theorem parseHostRest_inv (sch r : List Char) (u : URLRec)
    (h : parseHostRest sch r = some u) :
    u.scheme = sch ∧
      (u.host ≠ [] ∧ ∀ c ∈ u.host, isHostEnd c = false ∧ c ∈ r) ∧
      (u.path ≠ [] ∧ u.path.headD ' ' = '/' ∧ ∀ c ∈ u.path, notPQ c = true ∧ (c ∈ r ∨ c = '/')) ∧
      (∀ qv, u.query = some qv → ∀ c ∈ qv, c ≠ '#' ∧ c ∈ r) := by
  have hhostmem : ∀ c ∈ r.takeWhile (fun c => !isHostEnd c), isHostEnd c = false ∧ c ∈ r := by
    intro c hc
    have h1 := List.mem_takeWhile_imp hc
    exact ⟨by simpa using h1, List.takeWhile_subset _ hc⟩
  have hdropmem : ∀ c ∈ r.dropWhile (fun c => !isHostEnd c), c ∈ r :=
    fun c hc => List.dropWhile_subset _ hc
  unfold parseHostRest at h
  by_cases hh : r.takeWhile (fun c => !isHostEnd c) = []
  · rw [if_pos hh] at h
    cases h
  · rw [if_neg hh] at h
    by_cases hsl : (r.dropWhile (fun c => !isHostEnd c)).take 1 = ['/']
    · rw [if_pos hsl] at h
      obtain ⟨e1, e2, e3, e4⟩ := finishPQ_inv _ _ _ _ _ h
      obtain ⟨tl, htl⟩ := take_one_head _ _ hsl
      refine ⟨e1, ?_, ?_, ?_⟩
      · rw [e2]
        exact ⟨hh, hhostmem⟩
      · rw [e3, htl, List.takeWhile_cons_of_pos (show notPQ '/' = true by decide)]
        refine ⟨by simp, rfl, ?_⟩
        intro c hc
        rcases List.mem_cons.mp hc with rfl | hc2
        · exact ⟨by decide, Or.inr rfl⟩
        · have g1 := List.mem_takeWhile_imp hc2
          have g2 : c ∈ tl := List.takeWhile_subset _ hc2
          have g3 : c ∈ r := hdropmem c (by rw [htl]; exact List.mem_cons_of_mem _ g2)
          exact ⟨g1, Or.inl g3⟩
      · intro qv hqv c hc
        obtain ⟨hc1, hc2⟩ := e4 qv hqv c hc
        have g2 : c ∈ r.dropWhile (fun c => !isHostEnd c) := List.dropWhile_subset _ hc2
        exact ⟨hc1, hdropmem c g2⟩
    · rw [if_neg hsl] at h
      obtain ⟨e1, e2, e3, e4⟩ := finishPQ_inv _ _ _ _ _ h
      refine ⟨e1, ?_, ?_, ?_⟩
      · rw [e2]
        exact ⟨hh, hhostmem⟩
      · rw [e3]
        refine ⟨by simp, rfl, ?_⟩
        intro c hc
        rw [List.mem_singleton] at hc
        subst hc
        exact ⟨by decide, Or.inr rfl⟩
      · intro qv hqv c hc
        obtain ⟨hc1, hc2⟩ := e4 qv hqv c hc
        exact ⟨hc1, hdropmem c hc2⟩

theorem parseAbsolute_inv (l : List Char) (u : URLRec) (h : parseAbsolute l = some u) :
    (u.scheme ≠ [] ∧ (u.scheme.headD ' ').isAlpha = true ∧
      ∀ c ∈ u.scheme, isSchemeChar c = true ∧ c ∈ l) ∧
    (u.host ≠ [] ∧ ∀ c ∈ u.host, isHostEnd c = false ∧ c ∈ l) ∧
    (u.path ≠ [] ∧ u.path.headD ' ' = '/' ∧ ∀ c ∈ u.path, notPQ c = true ∧ (c ∈ l ∨ c = '/')) ∧
    (∀ qv, u.query = some qv → ∀ c ∈ qv, c ≠ '#' ∧ c ∈ l) := by
  unfold parseAbsolute at h
  by_cases hg : l.takeWhile isSchemeChar ≠ [] ∧
      ((l.takeWhile isSchemeChar).headD ' ').isAlpha = true ∧
      (l.dropWhile isSchemeChar).take 3 = [':', '/', '/']
  case neg =>
    rw [if_neg hg] at h
    cases h
  case pos =>
    rw [if_pos hg] at h
    have hrsub : ∀ c ∈ (l.dropWhile isSchemeChar).drop 3, c ∈ l := by
      intro c hc
      exact List.dropWhile_subset _ (List.drop_subset _ _ hc)
    obtain ⟨e1, e2, e3, e4⟩ := parseHostRest_inv _ _ _ h
    refine ⟨?_, ?_, ?_, ?_⟩
    · rw [e1]
      refine ⟨hg.1, hg.2.1, ?_⟩
      intro c hc
      exact ⟨List.mem_takeWhile_imp hc, List.takeWhile_subset _ hc⟩
    · obtain ⟨f1, f2⟩ := e2
      exact ⟨f1, fun c hc => ⟨(f2 c hc).1, hrsub c (f2 c hc).2⟩⟩
    · obtain ⟨f1, f2, f3⟩ := e3
      refine ⟨f1, f2, ?_⟩
      intro c hc
      rcases (f3 c hc).2 with hin | hsl
      · exact ⟨(f3 c hc).1, Or.inl (hrsub c hin)⟩
      · exact ⟨(f3 c hc).1, Or.inr hsl⟩
    · intro qv hqv c hc
      obtain ⟨g1, g2⟩ := e4 qv hqv c hc
      exact ⟨g1, hrsub c g2⟩

theorem serializeURL_shape (sch host path : List Char) (q : Option (List Char)) :
    serializeURL ⟨sch, host, path, q, none⟩ =
      sch ++ (':' :: '/' :: '/' :: (host ++ (path ++ qTail q))) := by
  simp [serializeURL, qTail, List.append_assoc]

theorem finishPQ_of_wfQuery (sch host path : List Char) (q : Option (List Char))
    (hq : wfQuery q) :
    finishPQ sch host path (qTail q) = some ⟨sch, host, path, q, none⟩ := by
  cases q with
  | none => simp [finishPQ, qTail]
  | some qv =>
    have htw : qv.takeWhile (fun c => decide (c ≠ '#')) = qv := by
      rw [List.takeWhile_eq_self_iff]
      intro x hx
      simpa using (hq x hx).1
    have hdw : qv.dropWhile (fun c => decide (c ≠ '#')) = [] := by
      rw [List.dropWhile_eq_nil_iff]
      intro x hx
      simpa using (hq x hx).1
    simp only [finishPQ, qTail]
    rw [if_pos (by simp)]
    simp only [List.drop_succ_cons, List.drop_zero]
    rw [htw, hdw]
    simp

theorem parse_serialize (sch host path : List Char) (q : Option (List Char))
    (hs : wfScheme sch) (hh : wfHost host) (hp : wfPath path) (hq : wfQuery q) :
    parseAbsolute (serializeURL ⟨sch, host, path, q, none⟩) = some ⟨sch, host, path, q, none⟩ := by
  obtain ⟨hp1, hp2, hp3⟩ := hp
  obtain ⟨c0, pt, rfl⟩ := List.exists_cons_of_ne_nil hp1
  have hc0 : c0 = '/' := by simpa using hp2
  subst hc0
  rw [serializeURL_shape]
  have hsplit1 := takeWhile_split isSchemeChar sch
    (':' :: '/' :: '/' :: (host ++ ('/' :: pt ++ qTail q)))
    (fun c hc => (hs.2.2 c hc).1)
    (Or.inr ⟨':', '/' :: '/' :: (host ++ ('/' :: pt ++ qTail q)), rfl, by decide⟩)
  simp only [parseAbsolute]
  rw [hsplit1.1, hsplit1.2]
  rw [if_pos (by exact ⟨hs.1, hs.2.1, by simp⟩)]
  simp only [List.drop_succ_cons, List.drop_zero, List.cons_append]
  have hsplit2 := takeWhile_split (fun c => !isHostEnd c) host ('/' :: (pt ++ qTail q))
    (fun c hc => by simp [(hh.2 c hc).1])
    (Or.inr ⟨'/', pt ++ qTail q, rfl, by decide⟩)
  simp only [parseHostRest]
  rw [hsplit2.1, hsplit2.2]
  rw [if_neg (by simpa using hh.1)]
  rw [if_pos (by simp)]
  have hsplit3 := takeWhile_split notPQ ('/' :: pt) (qTail q)
    (fun c hc => (hp3 c hc).1)
    (by
      cases q with
      | none => exact Or.inl rfl
      | some qv => exact Or.inr ⟨'?', qv, rfl, by decide⟩)
  simp only [List.cons_append] at hsplit3
  rw [hsplit3.1, hsplit3.2]
  exact finishPQ_of_wfQuery sch host ('/' :: pt) q hq

theorem noWS_of_any_false (l : List Char) (h : l.any isJsWS = false) : noWS l := by
  intro c hc
  rcases Bool.eq_false_or_eq_true (isJsWS c) with ht | hf
  · exfalso
    have h2 : l.any isJsWS = true := List.any_eq_true.mpr ⟨c, hc, ht⟩
    rw [h2] at h
    cases h
  · exact hf

theorem parseAbsolute_wf (l : List Char) (u : URLRec)
    (h : parseAbsolute l = some u) (hws : noWS l) : wfURL u := by
  obtain ⟨e1, e2, e3, e4⟩ := parseAbsolute_inv l u h
  refine ⟨⟨e1.1, e1.2.1, ?_⟩, ⟨e2.1, ?_⟩, ⟨e3.1, e3.2.1, ?_⟩, ?_⟩
  · intro c hc
    exact ⟨(e1.2.2 c hc).1, hws c (e1.2.2 c hc).2⟩
  · intro c hc
    exact ⟨(e2.2 c hc).1, hws c (e2.2 c hc).2⟩
  · intro c hc
    obtain ⟨ha, hb⟩ := e3.2.2 c hc
    rcases hb with hin | heq
    · exact ⟨ha, hws c hin⟩
    · subst heq
      exact ⟨ha, by decide⟩
  · cases hqv : u.query with
    | none => trivial
    | some qv =>
      intro c hc
      obtain ⟨g1, g2⟩ := e4 qv hqv c hc
      exact ⟨g1, hws c g2⟩

theorem parseURLString_wf (s : String) (u : URLRec)
    (h : parseURLString s = some u) : wfURL u := by
  unfold parseURLString at h
  by_cases hany : (stripCtl s.toList).any isJsWS = true
  · rw [if_pos hany] at h
    cases h
  · rw [if_neg hany] at h
    exact parseAbsolute_wf _ _ h (noWS_of_any_false _ (by simpa using hany))

theorem dropLastSeg_inv (p : List Char) (h1 : p ≠ []) (h2 : p.headD ' ' = '/') :
    dropLastSeg p ≠ [] ∧ (dropLastSeg p).headD ' ' = '/' ∧ ∀ c ∈ dropLastSeg p, c ∈ p := by
  obtain ⟨c0, pt, rfl⟩ := List.exists_cons_of_ne_nil h1
  have hc0 : c0 = '/' := by simpa using h2
  subst hc0
  unfold dropLastSeg
  set r := ('/' :: pt).reverse.dropWhile (fun c => decide (c ≠ '/')) with hr
  have hrne : r ≠ [] := by
    rw [hr]
    intro hnil
    rw [List.dropWhile_eq_nil_iff] at hnil
    have hmem : '/' ∈ ('/' :: pt).reverse := by simp
    have := hnil _ hmem
    simp at this
  obtain ⟨s, hs⟩ := List.dropWhile_suffix (l := ('/' :: pt).reverse) (fun c => decide (c ≠ '/'))
  rw [← hr] at hs
  have hpeq : '/' :: pt = r.reverse ++ s.reverse := by
    have h3 := congrArg List.reverse hs
    rw [List.reverse_append, List.reverse_reverse] at h3
    simpa using h3.symm
  have hrevne : r.reverse ≠ [] := by simpa using hrne
  obtain ⟨d, ds, hds⟩ := List.exists_cons_of_ne_nil hrevne
  have hd : d = '/' := by
    rw [hds] at hpeq
    simp only [List.cons_append] at hpeq
    exact (List.cons.injEq _ _ _ _ ▸ hpeq).1.symm
  refine ⟨hrevne, ?_, ?_⟩
  · rw [hds, hd]
    rfl
  · intro c hc
    rw [List.mem_reverse] at hc
    have h4 : c ∈ ('/' :: pt).reverse := by
      rw [← hs]
      exact List.mem_append_right s hc
    rw [List.mem_reverse] at h4
    exact h4

theorem relPath_wf (bu : URLRec) (l : List Char) (u : URLRec)
    (hbu : wfURL bu) (h : relPath bu l = some u) (hws : noWS l) : wfURL u := by
  unfold relPath at h
  obtain ⟨e1, e2, e3, e4⟩ := finishPQ_inv _ _ _ _ _ h
  obtain ⟨d1, d2, d3⟩ := dropLastSeg_inv bu.path hbu.2.2.1.1 hbu.2.2.1.2.1
  refine ⟨?_, ?_, ?_, ?_⟩
  · rw [e1]
    exact hbu.1
  · rw [e2]
    exact hbu.2.1
  · rw [e3]
    obtain ⟨g, gt, hgt⟩ := List.exists_cons_of_ne_nil d1
    constructor
    · rw [hgt]
      simp
    constructor
    · rw [hgt]
      rw [hgt] at d2
      simpa using d2
    · intro c hc
      rcases List.mem_append.mp hc with hin | hin
      · have := hbu.2.2.1.2.2 c (d3 c hin)
        exact this
      · have g1 := List.mem_takeWhile_imp hin
        have g2 : c ∈ l := List.takeWhile_subset _ hin
        exact ⟨g1, hws c g2⟩
  · cases hqv : u.query with
    | none => trivial
    | some qv =>
      intro c hc
      obtain ⟨g1, g2⟩ := e4 qv hqv c hc
      have g3 : c ∈ l := List.dropWhile_subset _ g2
      exact ⟨g1, hws c g3⟩

theorem resolveAgainst_wf (bu : URLRec) (l : List Char) (u : URLRec)
    (hbu : wfURL bu) (h : resolveAgainst bu l = some u) (hws : noWS l) : wfURL u := by
  unfold resolveAgainst at h
  by_cases h0 : l = []
  · rw [if_pos h0] at h
    cases h
    exact ⟨hbu.1, hbu.2.1, hbu.2.2.1, hbu.2.2.2⟩
  rw [if_neg h0] at h
  by_cases h1 : l.take 2 = ['/', '/']
  · rw [if_pos h1] at h
    obtain ⟨e1, e2, e3, e4⟩ := parseHostRest_inv _ _ _ h
    have hsub : ∀ c ∈ l.drop 2, c ∈ l := fun c hc => List.drop_subset _ _ hc
    refine ⟨by rw [e1]; exact hbu.1, ⟨e2.1, ?_⟩, ⟨e3.1, e3.2.1, ?_⟩, ?_⟩
    · intro c hc
      exact ⟨(e2.2 c hc).1, hws c (hsub c (e2.2 c hc).2)⟩
    · intro c hc
      obtain ⟨ha, hb⟩ := e3.2.2 c hc
      rcases hb with hin | heq
      · exact ⟨ha, hws c (hsub c hin)⟩
      · subst heq
        exact ⟨ha, by decide⟩
    · cases hqv : u.query with
      | none => trivial
      | some qv =>
        intro c hc
        obtain ⟨g1, g2⟩ := e4 qv hqv c hc
        exact ⟨g1, hws c (hsub c g2)⟩
  rw [if_neg h1] at h
  by_cases h2 : l.take 1 = ['/']
  · rw [if_pos h2] at h
    obtain ⟨e1, e2, e3, e4⟩ := finishPQ_inv _ _ _ _ _ h
    obtain ⟨tl, htl⟩ := take_one_head _ _ h2
    refine ⟨by rw [e1]; exact hbu.1, by rw [e2]; exact hbu.2.1, ?_, ?_⟩
    · rw [e3, htl, List.takeWhile_cons_of_pos (show notPQ '/' = true by decide)]
      refine ⟨by simp, rfl, ?_⟩
      intro c hc
      rcases List.mem_cons.mp hc with rfl | hc2
      · exact ⟨by decide, by decide⟩
      · have g1 := List.mem_takeWhile_imp hc2
        have g2 : c ∈ l := by
          rw [htl]
          exact List.mem_cons_of_mem _ (List.takeWhile_subset _ hc2)
        exact ⟨g1, hws c g2⟩
    · cases hqv : u.query with
      | none => trivial
      | some qv =>
        intro c hc
        obtain ⟨g1, g2⟩ := e4 qv hqv c hc
        exact ⟨g1, hws c (List.dropWhile_subset _ g2)⟩
  rw [if_neg h2] at h
  by_cases h3 : l.take 1 = ['?']
  · rw [if_pos h3] at h
    have hqmem : ∀ c ∈ (l.drop 1).takeWhile (fun c => decide (c ≠ '#')),
        c ≠ '#' ∧ isJsWS c = false := by
      intro c hc
      have g1 := List.mem_takeWhile_imp hc
      have g2 : c ∈ l := List.drop_subset _ _ (List.takeWhile_subset _ hc)
      exact ⟨by simpa using g1, hws c g2⟩
    by_cases h4 : ((l.drop 1).dropWhile (fun c => decide (c ≠ '#'))).take 1 = ['#']
    · rw [if_pos h4] at h
      cases h
      exact ⟨hbu.1, hbu.2.1, hbu.2.2.1, hqmem⟩
    · rw [if_neg h4] at h
      cases h
      exact ⟨hbu.1, hbu.2.1, hbu.2.2.1, hqmem⟩
  rw [if_neg h3] at h
  by_cases h5 : l.take 1 = ['#']
  · rw [if_pos h5] at h
    cases h
    exact ⟨hbu.1, hbu.2.1, hbu.2.2.1, hbu.2.2.2⟩
  rw [if_neg h5] at h
  by_cases h6 : l.takeWhile isSchemeChar ≠ [] ∧ (l.dropWhile isSchemeChar).take 1 = [':']
  · rw [if_pos h6] at h
    cases h
  · rw [if_neg h6] at h
    exact relPath_wf bu l u hbu h hws

theorem resolveURL_base_none (s : String) (b : Option String)
    (hb : parseURLString (baseStrOf b) = none) : resolveURL s b = none := by
  unfold resolveURL
  rw [hb]

theorem resolveURL_base_eq (s : String) (b : Option String) (bu : URLRec)
    (hb : parseURLString (baseStrOf b) = some bu) :
    resolveURL s b =
      if (stripCtl s.toList).any isJsWS = true then none
      else
        match parseAbsolute (stripCtl s.toList) with
        | some u => some u
        | none => resolveAgainst bu (stripCtl s.toList) := by
  unfold resolveURL
  rw [hb]

theorem resolveURL_wf (s : String) (b : Option String) (u : URLRec)
    (h : resolveURL s b = some u) : wfURL u := by
  cases hb : parseURLString (baseStrOf b) with
  | none => rw [resolveURL_base_none s b hb] at h; cases h
  | some bu =>
    rw [resolveURL_base_eq s b bu hb] at h
    by_cases hany : (stripCtl s.toList).any isJsWS = true
    · rw [if_pos hany] at h
      cases h
    · rw [if_neg hany] at h
      have hws := noWS_of_any_false _ (by simpa using hany)
      cases hp : parseAbsolute (stripCtl s.toList) with
      | some v =>
        rw [hp] at h
        cases h
        exact parseAbsolute_wf _ _ hp hws
      | none =>
        rw [hp] at h
        exact resolveAgainst_wf bu _ u (parseURLString_wf _ _ hb) h hws

theorem serialize_noWS (sch host path : List Char) (q : Option (List Char))
    (hs : wfScheme sch) (hh : wfHost host) (hp : wfPath path) (hq : wfQuery q) :
    noWS (serializeURL ⟨sch, host, path, q, none⟩) := by
  rw [serializeURL_shape]
  intro c hc
  rcases List.mem_append.mp hc with hin | hin
  · exact (hs.2.2 c hin).2
  · rcases List.mem_cons.mp hin with heq | hin2
    · subst heq; decide
    rcases List.mem_cons.mp hin2 with heq | hin3
    · subst heq; decide
    rcases List.mem_cons.mp hin3 with heq | hin4
    · subst heq; decide
    rcases List.mem_append.mp hin4 with hin5 | hin6
    · exact (hh.2 c hin5).2
    rcases List.mem_append.mp hin6 with hin7 | hin8
    · exact (hp.2.2 c hin7).2
    · cases q with
      | none => simp [qTail] at hin8
      | some qv =>
        simp only [qTail] at hin8
        rcases List.mem_cons.mp hin8 with heq | hin9
        · subst heq; decide
        · exact (hq c hin9).2

theorem noWS_stripCtl_id (l : List Char) (h : noWS l) : stripCtl l = l := by
  unfold stripCtl
  rw [List.filter_eq_self]
  intro c hc
  have h2 := h c hc
  revert h2
  unfold isJsWS
  intro h2
  simp only [Bool.or_eq_false_iff] at h2
  simp only [Bool.and_eq_true, decide_eq_true_eq]
  refine ⟨⟨?_, ?_⟩, ?_⟩
  · intro heq
    subst heq
    simp at h2
  · intro heq
    subst heq
    simp at h2
  · intro heq
    subst heq
    simp at h2

theorem noWS_trim_id (l : List Char) (h : noWS l) : trimList l = l :=
  trimList_eq_self l h

theorem prefix_headD (a b : List Char) (h : a <+: b) (ha : a ≠ []) :
    a.headD ' ' = b.headD ' ' := by
  obtain ⟨t, rfl⟩ := h
  cases a with
  | nil => exact absurd rfl ha
  | cons c cs => rfl

theorem normSlash_wfPath (p : List Char) (hp : wfPath p) : wfPath (normSlash p) := by
  obtain ⟨h1, h2, h3⟩ := hp
  simp only [normSlash]
  by_cases hlast : p.getLast? = some '/'
  · rw [if_pos hlast]
    by_cases hnil : p.dropLast = []
    · rw [if_pos hnil]
      refine ⟨by simp, rfl, ?_⟩
      intro c hc
      rw [List.mem_singleton] at hc
      subst hc
      exact ⟨by decide, by decide⟩
    · rw [if_neg hnil]
      refine ⟨hnil, ?_, ?_⟩
      · exact (prefix_headD _ _ (List.dropLast_prefix p) hnil).trans h2
      · intro c hc
        exact h3 c (List.dropLast_subset _ hc)
  · rw [if_neg hlast, if_neg h1]
    exact ⟨h1, h2, h3⟩

theorem normQuery_wf (q : Option (List Char)) (hq : wfQuery q) : wfQuery (normQuery q) := by
  unfold normQuery
  cases q with
  | none => trivial
  | some qv =>
    cases qv with
    | nil => trivial
    | cons c cs => exact hq

theorem normQuery_idem (q : Option (List Char)) : normQuery (normQuery q) = normQuery q := by
  unfold normQuery
  cases q with
  | none => rfl
  | some qv => cases qv <;> rfl

theorem normalizePostUrl_of_none (s : String) (b : Option String)
    (h : resolveURL (jsTrim s) b = none) : normalizePostUrl s b = jsTrim s := by
  unfold normalizePostUrl
  rw [h]

theorem normalizePostUrl_of_some (s : String) (b : Option String) (r : URLRec)
    (h : resolveURL (jsTrim s) b = some r) :
    normalizePostUrl s b =
      String.mk (serializeURL { r with frag := none, path := normSlash r.path, query := normQuery r.query }) := by
  unfold normalizePostUrl
  rw [h]

theorem any_false_of_noWS (l : List Char) (h : noWS l) : l.any isJsWS = false := by
  cases hb : l.any isJsWS with
  | false => rfl
  | true =>
    obtain ⟨c, hc, hct⟩ := List.any_eq_true.mp hb
    rw [h c hc] at hct
    cases hct

theorem jsTrim_mk_noWS (l : List Char) (h : noWS l) : jsTrim (String.mk l) = String.mk l := by
  unfold jsTrim
  rw [toList_mk, noWS_trim_id l h]

theorem normalizePostUrl_idem_of_stable (u : String) (b : Option String)
    (h : slashStable u b = true) :
    normalizePostUrl (normalizePostUrl u b) b = normalizePostUrl u b := by
  cases hres : resolveURL (jsTrim u) b with
  | none =>
    rw [normalizePostUrl_of_none u b hres]
    have h2 : resolveURL (jsTrim (jsTrim u)) b = none := by
      rw [jsTrim_idem]
      exact hres
    rw [normalizePostUrl_of_none (jsTrim u) b h2, jsTrim_idem]
  | some r =>
    have hwf := resolveURL_wf _ _ _ hres
    have hstab : normSlash (normSlash r.path) = normSlash r.path := by
      unfold slashStable at h
      rw [hres] at h
      exact eq_of_beq h
    obtain ⟨sch, host, path, q, f⟩ := r
    have hs := hwf.1
    have hh := hwf.2.1
    have hp := hwf.2.2.1
    have hq := hwf.2.2.2
    have hp2 : wfPath (normSlash path) := normSlash_wfPath path hp
    have hq2 : wfQuery (normQuery q) := normQuery_wf q hq
    have e1 := normalizePostUrl_of_some u b _ hres
    set S := serializeURL ⟨sch, host, normSlash path, normQuery q, none⟩ with hS
    have hnw : noWS S := serialize_noWS sch host (normSlash path) (normQuery q) hs hh hp2 hq2
    have hbase : ∃ bu, parseURLString (baseStrOf b) = some bu := by
      cases hb : parseURLString (baseStrOf b) with
      | none =>
        rw [resolveURL_base_none (jsTrim u) b hb] at hres
        cases hres
      | some bu => exact ⟨bu, rfl⟩
    obtain ⟨bu, hbu⟩ := hbase
    have htrim : jsTrim (String.mk S) = String.mk S := jsTrim_mk_noWS S hnw
    have hstrip : stripCtl (String.mk S).toList = S := by
      rw [toList_mk]
      exact noWS_stripCtl_id S hnw
    have hres2 : resolveURL (String.mk S) b =
        some ⟨sch, host, normSlash path, normQuery q, none⟩ := by
      rw [resolveURL_base_eq (String.mk S) b bu hbu, hstrip,
        if_neg (by rw [any_false_of_noWS S hnw]; exact Bool.false_ne_true),
        parse_serialize sch host (normSlash path) (normQuery q) hs hh hp2 hq2]
    rw [e1]
    have e2 := normalizePostUrl_of_some (String.mk S) b _ (by rw [htrim]; exact hres2)
    rw [e2]
    dsimp only
    dsimp only at hstab
    rw [normQuery_idem, hstab, ← hS]

theorem resolveAgainst_keeps (bu : URLRec) (l : List Char) (u : URLRec)
    (h : resolveAgainst bu l = some u) (hpr : l.take 2 ≠ ['/', '/']) :
    u.scheme = bu.scheme ∧ u.host = bu.host := by
  unfold resolveAgainst at h
  by_cases h0 : l = []
  · rw [if_pos h0] at h
    cases h
    exact ⟨rfl, rfl⟩
  rw [if_neg h0, if_neg hpr] at h
  by_cases h2 : l.take 1 = ['/']
  · rw [if_pos h2] at h
    obtain ⟨e1, e2, _, _⟩ := finishPQ_inv _ _ _ _ _ h
    exact ⟨e1, e2⟩
  rw [if_neg h2] at h
  by_cases h3 : l.take 1 = ['?']
  · rw [if_pos h3] at h
    by_cases h4 : ((l.drop 1).dropWhile (fun c => decide (c ≠ '#'))).take 1 = ['#']
    · rw [if_pos h4] at h
      cases h
      exact ⟨rfl, rfl⟩
    · rw [if_neg h4] at h
      cases h
      exact ⟨rfl, rfl⟩
  rw [if_neg h3] at h
  by_cases h5 : l.take 1 = ['#']
  · rw [if_pos h5] at h
    cases h
    exact ⟨rfl, rfl⟩
  rw [if_neg h5] at h
  by_cases h6 : l.takeWhile isSchemeChar ≠ [] ∧ (l.dropWhile isSchemeChar).take 1 = [':']
  · rw [if_pos h6] at h
    cases h
  · rw [if_neg h6] at h
    unfold relPath at h
    obtain ⟨e1, e2, _, _⟩ := finishPQ_inv _ _ _ _ _ h
    exact ⟨e1, e2⟩

theorem baseStrOf_ne_empty (b : String) (h : b ≠ "") : baseStrOf (some b) = b := by
  show (if b = "" then "https://example.com" else b) = b
  rw [if_neg h]

theorem resolveURL_base_congr (s : String) (b1 b2 : Option String)
    (h : baseStrOf b1 = baseStrOf b2) : resolveURL s b1 = resolveURL s b2 := by
  unfold resolveURL
  rw [h]

theorem normalizePostUrl_base_congr (s : String) (b1 b2 : Option String)
    (h : baseStrOf b1 = baseStrOf b2) : normalizePostUrl s b1 = normalizePostUrl s b2 := by
  unfold normalizePostUrl
  rw [resolveURL_base_congr (jsTrim s) b1 b2 h]

theorem resolve_fallback_origin (s : String) (u : URLRec)
    (h : resolveURL (jsTrim s) none = some u)
    (hab : parseAbsolute (stripCtl (jsTrim s).toList) = none)
    (hpr : (stripCtl (jsTrim s).toList).take 2 ≠ ['/', '/']) :
    u.scheme = "https".toList ∧ u.host = "example.com".toList := by
  have hbu : parseURLString (baseStrOf (none : Option String)) =
      some ⟨"https".toList, "example.com".toList, ['/'], none, none⟩ := by decide
  rw [resolveURL_base_eq (jsTrim s) none _ hbu] at h
  by_cases hany : (stripCtl (jsTrim s).toList).any isJsWS = true
  · rw [if_pos hany] at h
    cases h
  · rw [if_neg hany] at h
    rw [hab] at h
    exact resolveAgainst_keeps _ _ _ h hpr

/-- C5: normalizePostUrl resolves against the optional base, drops the
fragment, preserves a nonempty query as-is and strips a single trailing slash
unless the path is the root; unparseable input yields the trimmed original
string (total, never throws).  The three fragment/trailing-slash variants of
the same post URL normalize to the identical string, while adding a query
string yields a different one. -/
theorem normalizePostUrl_contract :
    (∀ s b, resolveURL (jsTrim s) b = none → normalizePostUrl s b = jsTrim s) ∧
    normalizePostUrl "https://x.com/p/abc/" none = "https://x.com/p/abc" ∧
    normalizePostUrl "https://x.com/p/abc" none = "https://x.com/p/abc" ∧
    normalizePostUrl "https://x.com/p/abc#frag" none = "https://x.com/p/abc" ∧
    normalizePostUrl "https://x.com/p/abc?x=1" none = "https://x.com/p/abc?x=1" ∧
    normalizePostUrl "https://x.com/p/abc?x=1" none ≠ normalizePostUrl "https://x.com/p/abc" none :=
  ⟨normalizePostUrl_of_none, by decide, by decide, by decide, by decide, by decide⟩

/-- Witness for C5 at a concrete unparseable input (https:// has no host). -/
theorem normalizePostUrl_contract_witness :
    resolveURL (jsTrim "https://") none = none ∧
    normalizePostUrl "https://" none = jsTrim "https://" :=
  ⟨by decide, normalizePostUrl_contract.1 "https://" none (by decide)⟩

/-- C6 counterexample: normalization is not idempotent as claimed; a path
ending in a doubled slash loses exactly one slash per pass, so the URL
https://x.com/a// normalizes to https://x.com/a/ and renormalizes to
https://x.com/a. -/
theorem normalizePostUrl_not_idempotent_cex :
    normalizePostUrl (normalizePostUrl "https://x.com/a//" none) none ≠
      normalizePostUrl "https://x.com/a//" none ∧
    normalizePostUrl "https://x.com/a//" none = "https://x.com/a/" ∧
    normalizePostUrl (normalizePostUrl "https://x.com/a//" none) none = "https://x.com/a" :=
  ⟨by decide, by decide, by decide⟩

/-- C6 amended: normalization is idempotent for every input and base whose
resolved path is stable under one more trailing-slash strip, i.e. for every
input that does not resolve to a path ending in a doubled slash. -/
theorem normalizePostUrl_idem_amended (u : String) (b : Option String)
    (h : slashStable u b = true) :
    normalizePostUrl (normalizePostUrl u b) b = normalizePostUrl u b :=
  normalizePostUrl_idem_of_stable u b h

/-- Witness for the amended C6 at a concrete input. -/
theorem normalizePostUrl_idem_amended_witness :
    slashStable "https://x.com/p/abc/" none = true ∧
    normalizePostUrl (normalizePostUrl "https://x.com/p/abc/" none) none =
      normalizePostUrl "https://x.com/p/abc/" none :=
  ⟨by decide, normalizePostUrl_idem_amended "https://x.com/p/abc/" none (by decide)⟩

/-- C10 counterexample: with a nonempty unparseable base the function does
not resolve against the example.com fallback; it returns the trimmed
original string. -/
theorem relative_base_fallback_cex :
    normalizePostUrl "/p/abc" (some ":bad:") = "/p/abc" ∧
    parseURLString ":bad:" = none ∧
    normalizePostUrl "/p/abc" (some ":bad:") ≠ "https://example.com/p/abc" :=
  ⟨by decide, by decide, by decide⟩

/-- C10 amended: with no base or an empty (falsy) base, a relative URL that
is not protocol-relative resolves against the hard-coded fallback
https://example.com and yields an absolute URL on that origin; a nonempty
base that itself fails to parse instead makes the whole construction fail,
returning the trimmed original string. -/
theorem relative_base_fallback_amended :
    (∀ s, normalizePostUrl s none = normalizePostUrl s (some "")) ∧
    (∀ s u, resolveURL (jsTrim s) none = some u →
      parseAbsolute (stripCtl (jsTrim s).toList) = none →
      (stripCtl (jsTrim s).toList).take 2 ≠ ['/', '/'] →
      u.scheme = "https".toList ∧ u.host = "example.com".toList ∧
        ∃ rest, normalizePostUrl s none = String.mk ("https://example.com".toList ++ rest)) ∧
    normalizePostUrl "/p/abc" none = "https://example.com/p/abc" ∧
    (∀ s b, b ≠ "" → parseURLString b = none → normalizePostUrl s (some b) = jsTrim s) := by
  refine ⟨?_, ?_, by decide, ?_⟩
  · intro s
    exact normalizePostUrl_base_congr s none (some "") (by decide)
  · intro s u h hab hpr
    obtain ⟨hsch, hhost⟩ := resolve_fallback_origin s u h hab hpr
    refine ⟨hsch, hhost, ?_⟩
    have e := normalizePostUrl_of_some s none u h
    obtain ⟨sch, host, path, q, f⟩ := u
    dsimp only at e hsch hhost
    subst hsch
    subst hhost
    refine ⟨normSlash path ++ qTail (normQuery q), ?_⟩
    rw [e]
    show String.mk (serializeURL ⟨"https".toList, "example.com".toList,
      normSlash path, normQuery q, none⟩) = _
    rw [serializeURL_shape]
    have key : ("https://example.com".toList : List Char) =
        "https".toList ++ (':' :: '/' :: '/' :: "example.com".toList) := by decide
    rw [key]
    simp [List.append_assoc, List.cons_append]
  · intro s b hb hpb
    apply normalizePostUrl_of_none
    apply resolveURL_base_none
    rw [baseStrOf_ne_empty b hb]
    exact hpb

/-- Witness for the amended C10 at a concrete relative input and a concrete
unparseable base. -/
theorem relative_base_fallback_amended_witness :
    (resolveURL (jsTrim "/p/xyz") none =
      some ⟨"https".toList, "example.com".toList, "/p/xyz".toList, none, none⟩) ∧
    (∃ rest, normalizePostUrl "/p/xyz" none =
      String.mk ("https://example.com".toList ++ rest)) ∧
    normalizePostUrl "q" (some "::") = jsTrim "q" := by
  refine ⟨by decide, ?_, ?_⟩
  · exact (relative_base_fallback_amended.2.1 "/p/xyz"
      ⟨"https".toList, "example.com".toList, "/p/xyz".toList, none, none⟩
      (by decide) (by decide) (by decide)).2.2
  · exact relative_base_fallback_amended.2.2.2 "q" "::" (by decide) (by decide)

/-- C7 counterexample: content extraction does not return the first non-empty
field value in priority order.  The nullish chain stops at the first present
field even when it is empty: an item whose content field is the empty string
and whose snippet is nonempty yields the fallback, not the snippet. -/
theorem getItemContent_cex :
    getItemContent { content := some "", contentSnippet := some "x" } =
      "See link for full content." ∧
    getItemContent { content := some "", contentSnippet := some "x" } ≠ "x" ∧
    ("x" : String) ≠ "" :=
  ⟨by decide, by decide, by decide⟩

/-- C7 amended: content extraction returns the first present (non-nullish)
value among content, contentEncoded, contentSnippet, summary and description,
in that order; it returns the literal fallback when no field is present or
when the first present value is the empty string; later fields are never
consulted once an earlier one is present, and no body field exists.  It is a
total function. -/
theorem getItemContent_amended (it : RssItem) (s : String) :
    (it.content = some s → s ≠ "" → getItemContent it = s) ∧
    (it.content = none → it.contentEncoded = some s → s ≠ "" → getItemContent it = s) ∧
    (it.content = none → it.contentEncoded = none → it.contentSnippet = some s → s ≠ "" →
      getItemContent it = s) ∧
    (it.content = none → it.contentEncoded = none → it.contentSnippet = none →
      it.summary = some s → s ≠ "" → getItemContent it = s) ∧
    (it.content = none → it.contentEncoded = none → it.contentSnippet = none →
      it.summary = none → it.description = some s → s ≠ "" → getItemContent it = s) ∧
    (it.content = none → it.contentEncoded = none → it.contentSnippet = none →
      it.summary = none → it.description = none →
      getItemContent it = "See link for full content.") ∧
    (it.content = some "" → getItemContent it = "See link for full content.") := by
  refine ⟨?_, ?_, ?_, ?_, ?_, ?_, ?_⟩
  · intro h1 h2
    unfold getItemContent jsNullish
    rw [h1]
    simp [h2]
  · intro h1 h2 h3
    unfold getItemContent jsNullish
    rw [h1, h2]
    simp [h3]
  · intro h1 h2 h3 h4
    unfold getItemContent jsNullish
    rw [h1, h2, h3]
    simp [h4]
  · intro h1 h2 h3 h4 h5
    unfold getItemContent jsNullish
    rw [h1, h2, h3, h4]
    simp [h5]
  · intro h1 h2 h3 h4 h5 h6
    unfold getItemContent jsNullish
    rw [h1, h2, h3, h4, h5]
    simp [h6]
  · intro h1 h2 h3 h4 h5
    unfold getItemContent jsNullish
    rw [h1, h2, h3, h4, h5]
    simp
  · intro h1
    unfold getItemContent jsNullish
    rw [h1]
    simp

/-- Witness for the amended C7 at concrete items exercising the first-field,
fallback and empty-first-field clauses. -/
theorem getItemContent_amended_witness :
    getItemContent { content := some "rich" } = "rich" ∧
    getItemContent { summary := some "s" } = "s" ∧
    getItemContent {} = "See link for full content." ∧
    getItemContent { content := some "", description := some "d" } =
      "See link for full content." := by
  refine ⟨?_, ?_, ?_, ?_⟩
  · exact (getItemContent_amended { content := some "rich" } "rich").1 rfl (by decide)
  · exact (getItemContent_amended { summary := some "s" } "s").2.2.2.1 rfl rfl rfl rfl (by decide)
  · exact (getItemContent_amended {} "").2.2.2.2.2.1 rfl rfl rfl rfl rfl
  · exact (getItemContent_amended { content := some "", description := some "d" } "").2.2.2.2.2.2 rfl

theorem processItem_no_link (src fu fl : String) (st : SyncState) (item : RssItem)
    (h : jsOr item.link item.guid = none) : processItem src fu fl st item = st := by
  unfold processItem
  rw [h]

theorem processItem_linked (src fu fl : String) (st : SyncState) (item : RssItem)
    (rawLink : String) (h : jsOr item.link item.guid = some rawLink) :
    processItem src fu fl st item = processLinked src fu fl st rawLink item := by
  unfold processItem
  rw [h]

theorem processLinked_seen (src fu fl : String) (st : SyncState) (rawLink : String)
    (item : RssItem) (h : st.seenUrls.contains (normalizePostUrl rawLink (some fl)) = true) :
    processLinked src fu fl st rawLink item = st := by
  unfold processLinked
  rw [if_pos h]

theorem processLinked_new (src fu fl : String) (st : SyncState) (rawLink : String)
    (item : RssItem) (h : st.seenUrls.contains (normalizePostUrl rawLink (some fl)) = false) :
    processLinked src fu fl st rawLink item =
      acceptItem src fu st (normalizePostUrl rawLink (some fl)) item := by
  unfold processLinked
  rw [if_neg (by rw [h]; exact Bool.false_ne_true)]

theorem processCand_seen (blogUrl fu0 : String) (st : SyncState) (cand : String)
    (h : st.seenUrls.contains (normalizePostUrl cand (some blogUrl)) = true) :
    processCand blogUrl fu0 st cand = st := by
  unfold processCand
  rw [if_pos h]

theorem processCand_new (blogUrl fu0 : String) (st : SyncState) (cand : String)
    (h : st.seenUrls.contains (normalizePostUrl cand (some blogUrl)) = false) :
    processCand blogUrl fu0 st cand =
      acceptCand fu0 st (normalizePostUrl cand (some blogUrl)) cand := by
  unfold processCand
  rw [if_neg (by rw [h]; exact Bool.false_ne_true)]

theorem allocName_starts (seen : List String) (pre rest0 : String) :
    ∃ r, allocName seen (pre ++ rest0) = pre ++ r := by
  rw [allocName_step]
  by_cases h : seen.contains (pre ++ rest0) = true
  · rw [if_pos h]
    refine ⟨rest0 ++ "-" ++ decStr (allocLoop seen (pre ++ rest0) (seen.length + 1) 1), ?_⟩
    unfold suffixed
    rw [String.append_assoc, String.append_assoc, String.append_assoc]
  · rw [if_neg h]
    exact ⟨rest0, rfl⟩

theorem getItemPubDate_some_pubDate (it : RssItem) (s : String) (h : it.pubDate = some s) :
    getItemPubDate it = if s = "" then none else jsParseDate s := by
  unfold getItemPubDate jsNullish
  rw [h]

theorem getItemPubDate_none_pubDate (it : RssItem) (h : it.pubDate = none) :
    getItemPubDate it =
      match it.updated with
      | none => none
      | some s => if s = "" then none else jsParseDate s := by
  unfold getItemPubDate jsNullish
  rw [h]

theorem dateStrOf_none (it : RssItem) (h : getItemPubDate it = none) :
    dateStrOf it = "unknown" := by
  unfold dateStrOf
  rw [h]

/-- C8: when every candidate date field is absent, empty or unparseable, date
resolution yields none without error (in particular an unparseable first
candidate is treated as absent), and the record persisted for such an
accepted item is stored under a key starting with the unknown date token with
a null published timestamp. -/
theorem date_fallback_unknown (it : RssItem) (src fu fl : String) (st : SyncState)
    (rawLink : String) :
    ((match it.pubDate with | none => True | some s => s = "" ∨ jsParseDate s = none) →
     (match it.updated with | none => True | some s => s = "" ∨ jsParseDate s = none) →
     getItemPubDate it = none) ∧
    (∀ s, it.pubDate = some s → s ≠ "" → jsParseDate s = none → getItemPubDate it = none) ∧
    (jsOr it.link it.guid = some rawLink →
     st.seenUrls.contains (normalizePostUrl rawLink (some fl)) = false →
     getItemPubDate it = none →
     ∃ r meta, processItem src fu fl st it =
        { seenUrls := addSet st.seenUrls (normalizePostUrl rawLink (some fl))
          seenFilenames := addSet st.seenFilenames ("unknown_" ++ r)
          files := st.files ++ [("unknown_" ++ r, meta)]
          writtenRss := st.writtenRss + 1
          writtenArchive := st.writtenArchive } ∧ meta.published = none) := by
  refine ⟨?_, ?_, ?_⟩
  · intro h1 h2
    cases hpd : it.pubDate with
    | some s =>
      rw [hpd] at h1
      rw [getItemPubDate_some_pubDate it s hpd]
      rcases h1 with he | hn
      · rw [if_pos he]
      · by_cases he : s = ""
        · rw [if_pos he]
        · rw [if_neg he, hn]
    | none =>
      rw [getItemPubDate_none_pubDate it hpd]
      cases hud : it.updated with
      | none => rfl
      | some s =>
        rw [hud] at h2
        rcases h2 with he | hn
        · simp [he]
        · by_cases he : s = ""
          · simp [he]
          · simp [he, hn]
  · intro s hpd hne hparse
    rw [getItemPubDate_some_pubDate it s hpd, if_neg hne, hparse]
  · intro hlink hseen hpub
    rw [processItem_linked src fu fl st it rawLink hlink,
      processLinked_new src fu fl st rawLink it hseen]
    have hbase : dateStrOf it ++ "_" ++ slugify (titleOf it) =
        "unknown_" ++ slugify (titleOf it) := by
      rw [dateStrOf_none it hpub]
      rw [show ("unknown" ++ "_" : String) = "unknown_" from by decide]
    obtain ⟨r, hr⟩ := allocName_starts st.seenFilenames "unknown_" (slugify (titleOf it))
    refine ⟨r, metaOf src fu (normalizePostUrl rawLink (some fl)) it, ?_, ?_⟩
    · unfold acceptItem
      rw [hbase, hr]
    · unfold metaOf
      rw [hpub]
      rfl

/-- Witness for C8 at a concrete item whose pubDate is the unparseable
string not-a-date. -/
theorem date_fallback_unknown_witness :
    getItemPubDate { pubDate := some "not-a-date", link := some "https://x.com/p/q" } = none ∧
    ∃ r meta,
      processItem "blog" "https://x.com/feed" "https://x.com"
          ⟨[], [], [], 0, 0⟩ { pubDate := some "not-a-date", link := some "https://x.com/p/q" } =
        { seenUrls := addSet [] (normalizePostUrl "https://x.com/p/q" (some "https://x.com"))
          seenFilenames := addSet [] ("unknown_" ++ r)
          files := [] ++ [("unknown_" ++ r, meta)]
          writtenRss := 0 + 1
          writtenArchive := 0 } ∧ meta.published = none := by
  constructor
  · exact (date_fallback_unknown { pubDate := some "not-a-date", link := some "https://x.com/p/q" }
      "blog" "https://x.com/feed" "https://x.com" ⟨[], [], [], 0, 0⟩ "https://x.com/p/q").2.1
      "not-a-date" rfl (by decide) (by decide)
  · exact (date_fallback_unknown { pubDate := some "not-a-date", link := some "https://x.com/p/q" }
      "blog" "https://x.com/feed" "https://x.com" ⟨[], [], [], 0, 0⟩ "https://x.com/p/q").2.2
      (by decide) (by decide)
      ((date_fallback_unknown { pubDate := some "not-a-date", link := some "https://x.com/p/q" }
        "blog" "https://x.com/feed" "https://x.com" ⟨[], [], [], 0, 0⟩ "https://x.com/p/q").2.1
        "not-a-date" rfl (by decide) (by decide))

/-- C4: with targets A, B, C where B fails every attempt and A, C succeed on
their first, a sweep with retry budget 2 ends with exactly B in the failure
list carrying the error output of its latest (second) attempt, counts A and C
as succeeded, and invokes A and C once and B twice, the second round
re-invoking only the failed target. -/
theorem fleet_retry_exact_failure_set (beh : String → Nat → Bool)
    (errOf : String → Nat → String)
    (hA : beh "A" 0 = true) (hC : beh "C" 0 = true) (hB : ∀ k, beh "B" k = false) :
    (sweep beh errOf ["A", "B", "C"] 2).failed = [("B", errOf "B" 1)] ∧
    (sweep beh errOf ["A", "B", "C"] 2).ok = 2 ∧
    (sweep beh errOf ["A", "B", "C"] 2).log = ["A", "B", "C", "B"] ∧
    (sweep beh errOf ["A", "B", "C"] 2).log.count "A" = 1 ∧
    (sweep beh errOf ["A", "B", "C"] 2).log.count "B" = 2 ∧
    (sweep beh errOf ["A", "B", "C"] 2).log.count "C" = 1 := by
  have s1 : attemptStep beh errOf ⟨[], 0, []⟩ "A" = ⟨[], 1, ["A"]⟩ := by
    unfold attemptStep
    rw [show List.count "A" (OrchState.log ⟨[], 0, []⟩) = 0 from rfl]
    simp [hA]
  have s2 : attemptStep beh errOf ⟨[], 1, ["A"]⟩ "B" =
      ⟨[("B", errOf "B" 0)], 1, ["A", "B"]⟩ := by
    unfold attemptStep
    rw [show List.count "B" (OrchState.log ⟨[], 1, ["A"]⟩) = 0 from rfl]
    simp [hB 0]
  have s3 : attemptStep beh errOf ⟨[("B", errOf "B" 0)], 1, ["A", "B"]⟩ "C" =
      ⟨[("B", errOf "B" 0)], 2, ["A", "B", "C"]⟩ := by
    unfold attemptStep
    rw [show List.count "C" (OrchState.log ⟨[("B", errOf "B" 0)], 1, ["A", "B"]⟩) = 0
      from rfl]
    simp [hC]
  have s5 : attemptStep beh errOf ⟨[], 2, ["A", "B", "C"]⟩ "B" =
      ⟨[("B", errOf "B" 1)], 2, ["A", "B", "C", "B"]⟩ := by
    unfold attemptStep
    rw [show List.count "B" (OrchState.log ⟨[], 2, ["A", "B", "C"]⟩) = 1 from rfl]
    simp [hB 1]
  have s4 : sweepRounds beh errOf 1 ⟨[("B", errOf "B" 0)], 2, ["A", "B", "C"]⟩ =
      attemptStep beh errOf ⟨[], 2, ["A", "B", "C"]⟩ "B" := by
    unfold sweepRounds
    rw [if_neg (by simp)]
    unfold sweepRounds roundFold
    simp only [List.map_cons, List.map_nil, List.foldl_cons, List.foldl_nil]
  have e1 : sweep beh errOf ["A", "B", "C"] 2 =
      ⟨[("B", errOf "B" 1)], 2, ["A", "B", "C", "B"]⟩ := by
    have estart : sweep beh errOf ["A", "B", "C"] 2 =
        sweepRounds beh errOf 1
          (attemptStep beh errOf
            (attemptStep beh errOf (attemptStep beh errOf ⟨[], 0, []⟩ "A") "B") "C") := rfl
    rw [estart, s1, s2, s3, s4, s5]
  rw [e1]
  refine ⟨rfl, rfl, rfl, rfl, rfl, rfl⟩

/-- Witness for C4 with a concrete behaviour where exactly B always exits
non-zero. -/
theorem fleet_retry_exact_failure_set_witness :
    (sweep (fun s _ => s != "B") (fun s k => s ++ decStr k) ["A", "B", "C"] 2).failed =
      [("B", "B" ++ decStr 1)] ∧
    (sweep (fun s _ => s != "B") (fun s k => s ++ decStr k) ["A", "B", "C"] 2).ok = 2 := by
  have h := fleet_retry_exact_failure_set (fun s _ => s != "B") (fun s k => s ++ decStr k)
    (by decide) (by decide) (fun k => rfl)
  exact ⟨h.1, h.2.1⟩

theorem attemptStep_failed_sub (beh : String → Nat → Bool) (errOf : String → Nat → String)
    (st : OrchState) (slug : String) :
    ∀ p ∈ (attemptStep beh errOf st slug).failed, p ∈ st.failed ∨ p.1 = slug := by
  intro p hp
  unfold attemptStep at hp
  by_cases hbe : beh slug (st.log.count slug) = true
  · rw [if_pos hbe] at hp
    exact Or.inl hp
  · rw [if_neg hbe] at hp
    simp only at hp
    rcases List.mem_append.mp hp with h1 | h1
    · exact Or.inl h1
    · rw [List.mem_singleton] at h1
      subst h1
      exact Or.inr rfl

theorem roundFold_failed_sub (beh : String → Nat → Bool) (errOf : String → Nat → String)
    (slugs : List String) (st : OrchState) :
    ∀ p ∈ (roundFold beh errOf slugs st).failed, p ∈ st.failed ∨ p.1 ∈ slugs := by
  induction slugs generalizing st with
  | nil => exact fun p hp => Or.inl hp
  | cons a t ih =>
    intro p hp
    unfold roundFold at hp
    rw [List.foldl_cons] at hp
    have h2 := ih (attemptStep beh errOf st a) p hp
    rcases h2 with h3 | h3
    · rcases attemptStep_failed_sub beh errOf st a p h3 with h4 | h4
      · exact Or.inl h4
      · exact Or.inr (by rw [h4]; exact List.mem_cons_self a t)
    · exact Or.inr (List.mem_cons_of_mem a h3)

theorem sweepRounds_failed_sub (beh : String → Nat → Bool) (errOf : String → Nat → String)
    (r : Nat) (st : OrchState) :
    ∀ p ∈ (sweepRounds beh errOf r st).failed, p.1 ∈ st.failed.map Prod.fst := by
  induction r generalizing st with
  | zero =>
    intro p hp
    exact List.mem_map_of_mem Prod.fst hp
  | succ r2 ih =>
    intro p hp
    unfold sweepRounds at hp
    by_cases he : st.failed.isEmpty = true
    · rw [if_pos he] at hp
      exact List.mem_map_of_mem Prod.fst hp
    · rw [if_neg he] at hp
      have h2 := ih _ p hp
      rw [List.mem_map] at h2
      obtain ⟨q, hq, hq2⟩ := h2
      rcases roundFold_failed_sub beh errOf (st.failed.map Prod.fst)
          { failed := [], ok := st.ok, log := st.log } q hq with h3 | h3
      · cases h3
      · rw [← hq2]
        exact h3

/-- C9 counterexample: a sweep that ends with zero failing targets does not
touch the manifest at all; a stale manifest from a previous run survives and
still lists a target. -/
theorem failure_manifest_cex :
    (sweep (fun _ _ => true) (fun _ _ => "") ["t"] 1).failed = [] ∧
    manifestAfter (some "stale\n") (sweep (fun _ _ => true) (fun _ _ => "") ["t"] 1) =
      some "stale\n" ∧
    ("stale\n" : String) ≠ "" :=
  ⟨by decide, by decide, by decide⟩

/-- C9 amended: the failure manifest is overwritten only when at least one
target remains failing after the retry budget, and then it holds exactly the
still-failing target identifiers (each a discovered target), one per line; a
sweep that ends with zero failing targets leaves the previous manifest file
untouched. -/
theorem failure_manifest_amended (beh : String → Nat → Bool) (errOf : String → Nat → String)
    (targets : List String) (retries : Nat) (prev : Option String) :
    ((sweep beh errOf targets retries).failed ≠ [] →
      manifestAfter prev (sweep beh errOf targets retries) =
        some (String.intercalate "\n"
          ((sweep beh errOf targets retries).failed.map Prod.fst) ++ "\n")) ∧
    ((sweep beh errOf targets retries).failed = [] →
      manifestAfter prev (sweep beh errOf targets retries) = prev) ∧
    (∀ sl e, (sl, e) ∈ (sweep beh errOf targets retries).failed → sl ∈ targets) := by
  refine ⟨?_, ?_, ?_⟩
  · intro hne
    unfold manifestAfter
    rw [if_pos (by
      have := List.length_pos.mpr hne
      omega)]
  · intro he
    unfold manifestAfter
    rw [he]
    simp
  · intro sl e hmem
    unfold sweep at hmem
    have h1 := sweepRounds_failed_sub beh errOf (retries - 1)
      (roundFold beh errOf targets ⟨[], 0, []⟩) (sl, e) hmem
    rw [List.mem_map] at h1
    obtain ⟨q, hq, hq2⟩ := h1
    rcases roundFold_failed_sub beh errOf targets ⟨[], 0, []⟩ q hq with h3 | h3
    · cases h3
    · have hq3 : q.1 = sl := hq2
      rw [hq3] at h3
      exact h3

/-- Witness for the amended C9: a failing target leads to an overwrite with
its identifier; the failing identifier is a discovered target. -/
theorem failure_manifest_amended_witness :
    manifestAfter (some "old\n") (sweep (fun s _ => s != "B") (fun _ _ => "err") ["A", "B"] 1) =
      some (String.intercalate "\n"
        ((sweep (fun s _ => s != "B") (fun _ _ => "err") ["A", "B"] 1).failed.map Prod.fst) ++ "\n") ∧
    ("B" : String) ∈ ["A", "B"] := by
  refine ⟨(failure_manifest_amended (fun s _ => s != "B") (fun _ _ => "err")
    ["A", "B"] 1 (some "old\n")).1 (by decide), ?_⟩
  exact (failure_manifest_amended (fun s _ => s != "B") (fun _ _ => "err")
    ["A", "B"] 1 (some "old\n")).2.2 "B" "err" (by decide)

theorem contains_false_not_mem (l : List String) (x : String)
    (h : l.contains x = false) : x ∉ l := by
  intro hmem
  have h2 : l.contains x = true := by simpa using hmem
  rw [h2] at h
  cases h

theorem contains_true_mem (l : List String) (x : String)
    (h : l.contains x = true) : x ∈ l := by
  simpa using h

theorem mem_addSet_self (l : List String) (x : String) : x ∈ addSet l x := by
  unfold addSet
  by_cases h : l.contains x = true
  · rw [if_pos h]
    exact contains_true_mem l x h
  · rw [if_neg h]
    exact List.mem_append_right l (List.mem_singleton.mpr rfl)

theorem mem_addSet_of_mem (l : List String) (x y : String) (h : y ∈ l) : y ∈ addSet l x := by
  unfold addSet
  by_cases h2 : l.contains x = true
  · rw [if_pos h2]
    exact h
  · rw [if_neg h2]
    exact List.mem_append_left _ h

theorem mem_addSet_cases (l : List String) (x y : String) (h : y ∈ addSet l x) :
    y ∈ l ∨ y = x := by
  unfold addSet at h
  by_cases h2 : l.contains x = true
  · rw [if_pos h2] at h
    exact Or.inl h
  · rw [if_neg h2] at h
    rcases List.mem_append.mp h with h3 | h3
    · exact Or.inl h3
    · exact Or.inr (List.mem_singleton.mp h3)

theorem hydrateUrls_eq_aux (disk : List (String × PostMeta)) :
    hydrateUrls disk = hydrateUrlsAux [] disk := rfl

theorem hydrateUrlsAux_mono (disk : List (String × PostMeta)) (acc : List String)
    (x : String) (h : x ∈ acc) : x ∈ hydrateUrlsAux acc disk := by
  induction disk generalizing acc with
  | nil => exact h
  | cons f t ih =>
    unfold hydrateUrlsAux
    rw [List.foldl_cons]
    apply ih
    by_cases h2 : f.2.link = ""
    · rw [if_pos h2]
      exact h
    · rw [if_neg h2]
      exact mem_addSet_of_mem _ _ _ h

theorem mem_hydrateUrlsAux (disk : List (String × PostMeta)) (acc : List String)
    (f : String × PostMeta) (hf : f ∈ disk) (hne : f.2.link ≠ "") :
    normalizePostUrl f.2.link none ∈ hydrateUrlsAux acc disk := by
  induction disk generalizing acc with
  | nil => cases hf
  | cons g t ih =>
    unfold hydrateUrlsAux
    rw [List.foldl_cons]
    rcases List.mem_cons.mp hf with heq | hmem
    · subst heq
      apply hydrateUrlsAux_mono
      rw [if_neg hne]
      exact mem_addSet_self _ _
    · exact ih _ hmem

theorem hydrateUrls_append_left (a b : List (String × PostMeta)) (x : String)
    (h : x ∈ hydrateUrls a) : x ∈ hydrateUrls (a ++ b) := by
  rw [hydrateUrls_eq_aux] at h ⊢
  unfold hydrateUrlsAux at h ⊢
  rw [List.foldl_append]
  exact hydrateUrlsAux_mono b _ x h

theorem hydrateUrls_append_right (a b : List (String × PostMeta))
    (f : String × PostMeta) (hf : f ∈ b) (hne : f.2.link ≠ "") :
    normalizePostUrl f.2.link none ∈ hydrateUrls (a ++ b) := by
  rw [hydrateUrls_eq_aux]
  unfold hydrateUrlsAux
  rw [List.foldl_append]
  exact mem_hydrateUrlsAux b _ f hf hne

theorem hydrateNamesAux_mono (disk : List (String × PostMeta)) (acc : List String)
    (x : String) (h : x ∈ acc) : x ∈ hydrateNamesAux acc disk := by
  induction disk generalizing acc with
  | nil => exact h
  | cons f t ih =>
    unfold hydrateNamesAux
    rw [List.foldl_cons]
    exact ih _ (mem_addSet_of_mem _ _ _ h)

theorem mem_hydrateNamesAux (disk : List (String × PostMeta)) (acc : List String)
    (f : String × PostMeta) (hf : f ∈ disk) : f.1 ∈ hydrateNamesAux acc disk := by
  induction disk generalizing acc with
  | nil => cases hf
  | cons g t ih =>
    unfold hydrateNamesAux
    rw [List.foldl_cons]
    rcases List.mem_cons.mp hf with heq | hmem
    · subst heq
      exact hydrateNamesAux_mono t _ _ (mem_addSet_self _ _)
    · exact ih _ hmem

theorem mem_hydrateNames (disk : List (String × PostMeta)) (f : String × PostMeta)
    (hf : f ∈ disk) : f.1 ∈ hydrateNames disk :=
  mem_hydrateNamesAux disk [] f hf

theorem nodup_concat_of (l : List String) (x : String) (hl : l.Nodup) (hx : x ∉ l) :
    (l ++ [x]).Nodup := by
  rw [← List.concat_eq_append]
  exact List.Nodup.concat hx hl

theorem SyncInv_push (disk : List (String × PostMeta)) (st : SyncState)
    (link name : String) (meta : PostMeta) (n1 n2 : Nat)
    (hInv : SyncInv disk st)
    (hlinkNew : st.seenUrls.contains link = false)
    (hnameNew : st.seenFilenames.contains name = false)
    (hmetaLink : meta.link = link) :
    SyncInv disk ⟨addSet st.seenUrls link, addSet st.seenFilenames name,
      st.files ++ [(name, meta)], n1, n2⟩ := by
  obtain ⟨a, b, c, d, e, f, g⟩ := hInv
  have hlinkNotMem : link ∉ st.seenUrls := contains_false_not_mem _ _ hlinkNew
  have hnameNotMem : name ∉ st.seenFilenames := contains_false_not_mem _ _ hnameNew
  refine ⟨?_, ?_, ?_, ?_, ?_, ?_, ?_⟩
  · intro x hx
    exact mem_addSet_of_mem _ _ _ (a x hx)
  · intro p hp
    rcases List.mem_append.mp hp with h1 | h1
    · exact mem_addSet_of_mem _ _ _ (b p h1)
    · rw [List.mem_singleton] at h1
      subst h1
      dsimp only
      rw [hmetaLink]
      exact mem_addSet_self _ _
  · rw [List.map_append]
    apply nodup_concat_of _ _ c
    intro hmem
    rw [List.mem_map] at hmem
    obtain ⟨p, hp, hpl⟩ := hmem
    dsimp only at hpl
    rw [hmetaLink] at hpl
    exact hlinkNotMem (hpl ▸ b p hp)
  · rw [List.map_append]
    apply nodup_concat_of _ _ d
    intro hmem
    rw [List.mem_map] at hmem
    obtain ⟨p, hp, hpl⟩ := hmem
    dsimp only at hpl
    exact hnameNotMem (hpl ▸ f p hp)
  · intro p hp
    rcases List.mem_append.mp hp with h1 | h1
    · exact e p h1
    · rw [List.mem_singleton] at h1
      subst h1
      dsimp only
      intro hdisk
      rw [List.mem_map] at hdisk
      obtain ⟨q, hq, hq2⟩ := hdisk
      exact hnameNotMem (a name (hq2 ▸ mem_hydrateNames disk q hq))
  · intro p hp
    rcases List.mem_append.mp hp with h1 | h1
    · exact mem_addSet_of_mem _ _ _ (f p h1)
    · rw [List.mem_singleton] at h1
      subst h1
      exact mem_addSet_self _ _
  · intro x hx
    rcases mem_addSet_cases _ _ _ hx with h1 | h1
    · rcases g x h1 with h2 | ⟨p, hp, hp2⟩
      · exact Or.inl h2
      · exact Or.inr ⟨p, List.mem_append_left _ hp, hp2⟩
    · subst h1
      exact Or.inr ⟨(name, meta), List.mem_append_right _ (List.mem_singleton.mpr rfl),
        hmetaLink⟩

theorem SyncInv_acceptItem (disk : List (String × PostMeta)) (st : SyncState)
    (src fu link : String) (it : RssItem)
    (hInv : SyncInv disk st) (hnew : st.seenUrls.contains link = false) :
    SyncInv disk (acceptItem src fu st link it) :=
  SyncInv_push disk st link
    (allocName st.seenFilenames (dateStrOf it ++ "_" ++ slugify (titleOf it)))
    (metaOf src fu link it) (st.writtenRss + 1) st.writtenArchive
    hInv hnew (allocName_free _ _) rfl

theorem SyncInv_acceptCand (disk : List (String × PostMeta)) (st : SyncState)
    (fu0 normalized cand : String)
    (hInv : SyncInv disk st) (hnew : st.seenUrls.contains normalized = false) :
    SyncInv disk (acceptCand fu0 st normalized cand) :=
  SyncInv_push disk st normalized
    (allocName st.seenFilenames ("unknown_" ++ slugFromSubstackPath cand))
    (stubMetaOf fu0 normalized) st.writtenRss (st.writtenArchive + 1)
    hInv hnew (allocName_free _ _) rfl

theorem SyncInv_processItem (disk : List (String × PostMeta)) (st : SyncState)
    (src fu fl : String) (it : RssItem) (hInv : SyncInv disk st) :
    SyncInv disk (processItem src fu fl st it) := by
  cases hj : jsOr it.link it.guid with
  | none =>
    rw [processItem_no_link src fu fl st it hj]
    exact hInv
  | some raw =>
    rw [processItem_linked src fu fl st it raw hj]
    by_cases hc : st.seenUrls.contains (normalizePostUrl raw (some fl)) = true
    · rw [processLinked_seen src fu fl st raw it hc]
      exact hInv
    · have hc2 : st.seenUrls.contains (normalizePostUrl raw (some fl)) = false := by
        simpa using hc
      rw [processLinked_new src fu fl st raw it hc2]
      exact SyncInv_acceptItem disk st src fu _ it hInv hc2

theorem SyncInv_processCand (disk : List (String × PostMeta)) (st : SyncState)
    (blogUrl fu0 cand : String) (hInv : SyncInv disk st) :
    SyncInv disk (processCand blogUrl fu0 st cand) := by
  by_cases hc : st.seenUrls.contains (normalizePostUrl cand (some blogUrl)) = true
  · rw [processCand_seen blogUrl fu0 st cand hc]
    exact hInv
  · have hc2 : st.seenUrls.contains (normalizePostUrl cand (some blogUrl)) = false := by
      simpa using hc
    rw [processCand_new blogUrl fu0 st cand hc2]
    exact SyncInv_acceptCand disk st fu0 _ cand hInv hc2

theorem SyncInv_foldl_items (disk : List (String × PostMeta)) (src fu fl : String)
    (items : List RssItem) (st : SyncState) (hInv : SyncInv disk st) :
    SyncInv disk (items.foldl (processItem src fu fl) st) := by
  induction items generalizing st with
  | nil => exact hInv
  | cons it t ih =>
    rw [List.foldl_cons]
    exact ih _ (SyncInv_processItem disk st src fu fl it hInv)

theorem SyncInv_foldl_feeds (disk : List (String × PostMeta)) (src : String)
    (feeds : List Feed) (st : SyncState) (hInv : SyncInv disk st) :
    SyncInv disk (feeds.foldl (processFeed src) st) := by
  induction feeds generalizing st with
  | nil => exact hInv
  | cons fd t ih =>
    rw [List.foldl_cons]
    exact ih _ (SyncInv_foldl_items disk src fd.url (feedLinkOf fd) fd.items st hInv)

theorem SyncInv_init (disk : List (String × PostMeta)) :
    SyncInv disk ⟨hydrateUrls disk, hydrateNames disk, [], 0, 0⟩ := by
  refine ⟨fun x hx => hx, ?_, ?_, ?_, ?_, ?_, ?_⟩
  · intro p hp
    cases hp
  · exact List.nodup_nil
  · exact List.nodup_nil
  · intro p hp
    cases hp
  · intro p hp
    cases hp
  · intro x hx
    exact Or.inl hx

theorem SyncInv_rssPhase (inp : SyncInput) (disk : List (String × PostMeta)) :
    SyncInv disk (rssPhase inp disk) :=
  SyncInv_foldl_feeds disk (sourceOf inp) inp.feeds _ (SyncInv_init disk)

theorem SyncInv_foldl_cands (disk : List (String × PostMeta)) (blogUrl fu0 : String)
    (cands : List String) (st : SyncState) (hInv : SyncInv disk st) :
    SyncInv disk (cands.foldl (processCand blogUrl fu0) st) := by
  induction cands generalizing st with
  | nil => exact hInv
  | cons c t ih =>
    rw [List.foldl_cons]
    exact ih _ (SyncInv_processCand disk st blogUrl fu0 c hInv)

theorem SyncInv_runSync (inp : SyncInput) (disk : List (String × PostMeta)) :
    SyncInv disk (runSync inp disk) := by
  unfold runSync
  by_cases ha : archActive inp = true
  · rw [if_pos ha]
    exact SyncInv_foldl_cands disk (blogUrlOf inp) (inp.feedUrls.headD "")
      (inp.archCandidates.getD []) _ (SyncInv_rssPhase inp disk)
  · rw [if_neg ha]
    exact SyncInv_rssPhase inp disk

theorem acceptItem_seen_mono (src fu link : String) (st : SyncState) (it : RssItem)
    (x : String) (h : x ∈ st.seenUrls) : x ∈ (acceptItem src fu st link it).seenUrls :=
  mem_addSet_of_mem _ _ _ h

theorem processItem_seen_mono (src fu fl : String) (st : SyncState) (it : RssItem)
    (x : String) (h : x ∈ st.seenUrls) : x ∈ (processItem src fu fl st it).seenUrls := by
  cases hj : jsOr it.link it.guid with
  | none =>
    rw [processItem_no_link src fu fl st it hj]
    exact h
  | some raw =>
    rw [processItem_linked src fu fl st it raw hj]
    by_cases hc : st.seenUrls.contains (normalizePostUrl raw (some fl)) = true
    · rw [processLinked_seen src fu fl st raw it hc]
      exact h
    · have hc2 : st.seenUrls.contains (normalizePostUrl raw (some fl)) = false := by
        simpa using hc
      rw [processLinked_new src fu fl st raw it hc2]
      exact acceptItem_seen_mono src fu _ st it x h

theorem foldl_items_seen_mono (src fu fl : String) (items : List RssItem) (st : SyncState)
    (x : String) (h : x ∈ st.seenUrls) :
    x ∈ (items.foldl (processItem src fu fl) st).seenUrls := by
  induction items generalizing st with
  | nil => exact h
  | cons it t ih =>
    rw [List.foldl_cons]
    exact ih _ (processItem_seen_mono src fu fl st it x h)

theorem foldl_feeds_seen_mono (src : String) (feeds : List Feed) (st : SyncState)
    (x : String) (h : x ∈ st.seenUrls) :
    x ∈ (feeds.foldl (processFeed src) st).seenUrls := by
  induction feeds generalizing st with
  | nil => exact h
  | cons fd t ih =>
    rw [List.foldl_cons]
    exact ih _ (foldl_items_seen_mono src fd.url (feedLinkOf fd) fd.items st x h)

theorem processCand_seen_mono (blogUrl fu0 : String) (st : SyncState) (cand : String)
    (x : String) (h : x ∈ st.seenUrls) : x ∈ (processCand blogUrl fu0 st cand).seenUrls := by
  by_cases hc : st.seenUrls.contains (normalizePostUrl cand (some blogUrl)) = true
  · rw [processCand_seen blogUrl fu0 st cand hc]
    exact h
  · have hc2 : st.seenUrls.contains (normalizePostUrl cand (some blogUrl)) = false := by
      simpa using hc
    rw [processCand_new blogUrl fu0 st cand hc2]
    exact mem_addSet_of_mem _ _ _ h

theorem foldl_cands_seen_mono (blogUrl fu0 : String) (cands : List String) (st : SyncState)
    (x : String) (h : x ∈ st.seenUrls) :
    x ∈ (cands.foldl (processCand blogUrl fu0) st).seenUrls := by
  induction cands generalizing st with
  | nil => exact h
  | cons c t ih =>
    rw [List.foldl_cons]
    exact ih _ (processCand_seen_mono blogUrl fu0 st c x h)

theorem processItem_adds (src fu fl : String) (st : SyncState) (it : RssItem) (raw : String)
    (hj : jsOr it.link it.guid = some raw) :
    normalizePostUrl raw (some fl) ∈ (processItem src fu fl st it).seenUrls := by
  rw [processItem_linked src fu fl st it raw hj]
  by_cases hc : st.seenUrls.contains (normalizePostUrl raw (some fl)) = true
  · rw [processLinked_seen src fu fl st raw it hc]
    exact contains_true_mem _ _ hc
  · have hc2 : st.seenUrls.contains (normalizePostUrl raw (some fl)) = false := by
      simpa using hc
    rw [processLinked_new src fu fl st raw it hc2]
    exact mem_addSet_self _ _

theorem foldl_items_adds (src fu fl : String) (items : List RssItem) (st : SyncState)
    (it : RssItem) (raw : String) (hit : it ∈ items) (hj : jsOr it.link it.guid = some raw) :
    normalizePostUrl raw (some fl) ∈ (items.foldl (processItem src fu fl) st).seenUrls := by
  induction items generalizing st with
  | nil => cases hit
  | cons a t ih =>
    rw [List.foldl_cons]
    rcases List.mem_cons.mp hit with heq | hmem
    · subst heq
      exact foldl_items_seen_mono src fu fl t _ _ (processItem_adds src fu fl st it raw hj)
    · exact ih _ hmem

theorem foldl_feeds_adds (src : String) (feeds : List Feed) (st : SyncState)
    (fd : Feed) (it : RssItem) (raw : String)
    (hfd : fd ∈ feeds) (hit : it ∈ fd.items) (hj : jsOr it.link it.guid = some raw) :
    normalizePostUrl raw (some (feedLinkOf fd)) ∈ (feeds.foldl (processFeed src) st).seenUrls := by
  induction feeds generalizing st with
  | nil => cases hfd
  | cons a t ih =>
    rw [List.foldl_cons]
    rcases List.mem_cons.mp hfd with heq | hmem
    · subst heq
      apply foldl_feeds_seen_mono
      exact foldl_items_adds src fd.url (feedLinkOf fd) fd.items st it raw hit hj
    · exact ih _ hmem

theorem processCand_adds (blogUrl fu0 : String) (st : SyncState) (cand : String) :
    normalizePostUrl cand (some blogUrl) ∈ (processCand blogUrl fu0 st cand).seenUrls := by
  by_cases hc : st.seenUrls.contains (normalizePostUrl cand (some blogUrl)) = true
  · rw [processCand_seen blogUrl fu0 st cand hc]
    exact contains_true_mem _ _ hc
  · have hc2 : st.seenUrls.contains (normalizePostUrl cand (some blogUrl)) = false := by
      simpa using hc
    rw [processCand_new blogUrl fu0 st cand hc2]
    exact mem_addSet_self _ _

theorem foldl_cands_adds (blogUrl fu0 : String) (cands : List String) (st : SyncState)
    (cand : String) (hc : cand ∈ cands) :
    normalizePostUrl cand (some blogUrl) ∈
      (cands.foldl (processCand blogUrl fu0) st).seenUrls := by
  induction cands generalizing st with
  | nil => cases hc
  | cons a t ih =>
    rw [List.foldl_cons]
    rcases List.mem_cons.mp hc with heq | hmem
    · subst heq
      exact foldl_cands_seen_mono blogUrl fu0 t _ _ (processCand_adds blogUrl fu0 st cand)
    · exact ih _ hmem

theorem processItem_files_ext (src fu fl : String) (st : SyncState) (it : RssItem) :
    ∃ tail, (processItem src fu fl st it).files = st.files ++ tail := by
  cases hj : jsOr it.link it.guid with
  | none =>
    rw [processItem_no_link src fu fl st it hj]
    exact ⟨[], by simp⟩
  | some raw =>
    rw [processItem_linked src fu fl st it raw hj]
    by_cases hc : st.seenUrls.contains (normalizePostUrl raw (some fl)) = true
    · rw [processLinked_seen src fu fl st raw it hc]
      exact ⟨[], by simp⟩
    · have hc2 : st.seenUrls.contains (normalizePostUrl raw (some fl)) = false := by
        simpa using hc
      rw [processLinked_new src fu fl st raw it hc2]
      exact ⟨_, rfl⟩

theorem processCand_files_ext (blogUrl fu0 : String) (st : SyncState) (cand : String) :
    ∃ tail, (processCand blogUrl fu0 st cand).files = st.files ++ tail := by
  by_cases hc : st.seenUrls.contains (normalizePostUrl cand (some blogUrl)) = true
  · rw [processCand_seen blogUrl fu0 st cand hc]
    exact ⟨[], by simp⟩
  · have hc2 : st.seenUrls.contains (normalizePostUrl cand (some blogUrl)) = false := by
      simpa using hc
    rw [processCand_new blogUrl fu0 st cand hc2]
    exact ⟨_, rfl⟩

theorem foldl_cands_files_ext (blogUrl fu0 : String) (cands : List String) (st : SyncState) :
    ∃ tail, (cands.foldl (processCand blogUrl fu0) st).files = st.files ++ tail := by
  induction cands generalizing st with
  | nil => exact ⟨[], by simp⟩
  | cons c t ih =>
    rw [List.foldl_cons]
    obtain ⟨t1, ht1⟩ := ih (processCand blogUrl fu0 st c)
    obtain ⟨t0, ht0⟩ := processCand_files_ext blogUrl fu0 st c
    exact ⟨t0 ++ t1, by rw [ht1, ht0, List.append_assoc]⟩

theorem runSync_files_ext (inp : SyncInput) (disk : List (String × PostMeta)) :
    ∃ tail, (runSync inp disk).files = (rssPhase inp disk).files ++ tail := by
  unfold runSync
  by_cases ha : archActive inp = true
  · rw [if_pos ha]
    exact foldl_cands_files_ext (blogUrlOf inp) (inp.feedUrls.headD "")
      (inp.archCandidates.getD []) _
  · rw [if_neg ha]
    exact ⟨[], by simp⟩

/-- C2: storage-key allocation is collision-safe.  The allocated key is never
an already-taken key; when the base key is taken the allocator returns the
base with the smallest unused numeric suffix; across any whole run the
written keys are pairwise distinct and never equal to a key already on disk;
and in the concrete two-post scenario (same date 2024-01-01, same title
Hello) the two posts are stored under 2024-01-01_hello and
2024-01-01_hello-1. -/
theorem storage_key_allocation_collision_safe :
    (∀ (seen : List String) (base : String), seen.contains (allocName seen base) = false) ∧
    (∀ (seen : List String) (base : String), seen.contains base = true →
      ∃ n, 1 ≤ n ∧ allocName seen base = suffixed base n ∧
        seen.contains (suffixed base n) = false ∧
        ∀ m, 1 ≤ m → m < n → seen.contains (suffixed base m) = true) ∧
    (∀ inp disk, ((runSync inp disk).files.map Prod.fst).Nodup ∧
      ∀ f ∈ (runSync inp disk).files, f.1 ∉ disk.map Prod.fst) ∧
    (runSync twoHelloInput []).files.map Prod.fst =
      ["2024-01-01_hello", "2024-01-01_hello-1"] := by
  refine ⟨allocName_free, allocName_least, ?_, by decide⟩
  intro inp disk
  have h := SyncInv_runSync inp disk
  exact ⟨h.2.2.2.1, h.2.2.2.2.1⟩

/-- Witness for C2: the allocator at concrete taken-key inputs. -/
theorem storage_key_allocation_collision_safe_witness :
    (["a", "a-1"].contains (allocName ["a", "a-1"] "a") = false) ∧
    (∃ n, 1 ≤ n ∧ allocName ["a"] "a" = suffixed "a" n ∧
      ["a"].contains (suffixed "a" n) = false ∧
      ∀ m, 1 ≤ m → m < n → ["a"].contains (suffixed "a" m) = true) :=
  ⟨storage_key_allocation_collision_safe.1 ["a", "a-1"] "a",
   storage_key_allocation_collision_safe.2.1 ["a"] "a" (by decide)⟩

theorem acceptItem_supplement (src fu link : String) (st : SyncState) (it : RssItem)
    (h : ∀ f ∈ st.files, f.2.supplement = false) :
    ∀ f ∈ (acceptItem src fu st link it).files, f.2.supplement = false := by
  intro f hf
  rcases List.mem_append.mp hf with h1 | h1
  · exact h f h1
  · rw [List.mem_singleton] at h1
    subst h1
    rfl

theorem processItem_supplement (src fu fl : String) (st : SyncState) (it : RssItem)
    (h : ∀ f ∈ st.files, f.2.supplement = false) :
    ∀ f ∈ (processItem src fu fl st it).files, f.2.supplement = false := by
  cases hj : jsOr it.link it.guid with
  | none =>
    rw [processItem_no_link src fu fl st it hj]
    exact h
  | some raw =>
    rw [processItem_linked src fu fl st it raw hj]
    by_cases hc : st.seenUrls.contains (normalizePostUrl raw (some fl)) = true
    · rw [processLinked_seen src fu fl st raw it hc]
      exact h
    · have hc2 : st.seenUrls.contains (normalizePostUrl raw (some fl)) = false := by
        simpa using hc
      rw [processLinked_new src fu fl st raw it hc2]
      exact acceptItem_supplement src fu _ st it h

theorem foldl_items_supplement (src fu fl : String) (items : List RssItem) (st : SyncState)
    (h : ∀ f ∈ st.files, f.2.supplement = false) :
    ∀ f ∈ (items.foldl (processItem src fu fl) st).files, f.2.supplement = false := by
  induction items generalizing st with
  | nil => exact h
  | cons it t ih =>
    rw [List.foldl_cons]
    exact ih _ (processItem_supplement src fu fl st it h)

theorem rssPhase_supplement_false (inp : SyncInput) (disk : List (String × PostMeta)) :
    ∀ f ∈ (rssPhase inp disk).files, f.2.supplement = false := by
  unfold rssPhase
  generalize hst : (⟨hydrateUrls disk, hydrateNames disk, [], 0, 0⟩ : SyncState) = st0
  have h0 : ∀ f ∈ st0.files, f.2.supplement = false := by
    rw [← hst]
    intro f hf
    cases hf
  clear hst
  induction inp.feeds generalizing st0 with
  | nil => exact h0
  | cons fd t ih =>
    rw [List.foldl_cons]
    exact ih _ (foldl_items_supplement (sourceOf inp) fd.url (feedLinkOf fd) fd.items st0 h0)

theorem filter_none_of_not_mem (l : List (String × PostMeta)) (u : String)
    (h : u ∉ l.map (fun f => f.2.link)) :
    l.filter (fun f => f.2.link == u) = [] := by
  induction l with
  | nil => rfl
  | cons a t ih =>
    rw [List.map_cons] at h
    rw [List.filter_cons]
    have hne : a.2.link ≠ u := by
      intro heq
      apply h
      rw [← heq]
      exact List.mem_cons_self _ _
    rw [if_neg (by simpa using hne)]
    exact ih (fun hmem => h (List.mem_cons_of_mem _ hmem))

theorem filter_count_one (l : List (String × PostMeta)) (u : String)
    (hnd : (l.map (fun f => f.2.link)).Nodup) (hu : u ∈ l.map (fun f => f.2.link)) :
    (l.filter (fun f => f.2.link == u)).length = 1 := by
  induction l with
  | nil => cases hu
  | cons a t ih =>
    rw [List.map_cons] at hnd hu
    rw [List.filter_cons]
    rcases List.mem_cons.mp hu with heq | hmem
    · rw [if_pos (by simpa using heq.symm)]
      rw [List.length_cons]
      have hnot : u ∉ t.map (fun f => f.2.link) := by
        rw [heq]
        exact (List.nodup_cons.mp hnd).1
      rw [filter_none_of_not_mem t u hnot]
      rfl
    · have hne : a.2.link ≠ u := by
        intro heq2
        exact (List.nodup_cons.mp hnd).1 (heq2 ▸ hmem)
      rw [if_neg (by simpa using hne)]
      exact ih (List.nodup_cons.mp hnd).2 hmem

/-- C3: when a feed item and an archive candidate normalize to the same URL
and the RSS phase accepted the item, exactly one record is written for that
URL across the whole run, and every written record carrying that URL is the
feed-sourced non-stub one: the RSS phase runs first and marks the URL seen,
so the archive phase skips the candidate. -/
theorem archive_supplement_non_duplication (inp : SyncInput)
    (disk : List (String × PostMeta)) (u c : String)
    (hc : c ∈ inp.archCandidates.getD [])
    (hcu : normalizePostUrl c (some (blogUrlOf inp)) = u)
    (hu : u ∈ (rssPhase inp disk).files.map (fun f => f.2.link)) :
    ((runSync inp disk).files.filter (fun f => f.2.link == u)).length = 1 ∧
    (∀ f ∈ (runSync inp disk).files, f.2.link = u → f.2.supplement = false) := by
  obtain ⟨tail, htail⟩ := runSync_files_ext inp disk
  have hnd : ((runSync inp disk).files.map (fun f => f.2.link)).Nodup :=
    (SyncInv_runSync inp disk).2.2.1
  have hu2 : u ∈ (runSync inp disk).files.map (fun f => f.2.link) := by
    rw [htail, List.map_append]
    exact List.mem_append_left _ hu
  refine ⟨filter_count_one _ u hnd hu2, ?_⟩
  intro f hf hfl
  rw [htail] at hf
  rcases List.mem_append.mp hf with h1 | h1
  · exact rssPhase_supplement_false inp disk f h1
  · exfalso
    have hnd2 := hnd
    rw [htail, List.map_append] at hnd2
    have hdisj := (List.nodup_append.mp hnd2).2.2
    exact hdisj hu (by rw [← hfl]; exact List.mem_map_of_mem _ h1)

/-- Witness for C3 on the concrete overlapping input. -/
theorem archive_supplement_non_duplication_witness :
    ((runSync substackInput []).files.filter
      (fun f => f.2.link == "https://y.substack.com/p/one")).length = 1 ∧
    (∀ f ∈ (runSync substackInput []).files,
      f.2.link = "https://y.substack.com/p/one" → f.2.supplement = false) :=
  archive_supplement_non_duplication substackInput [] "https://y.substack.com/p/one"
    "https://y.substack.com/p/one" (by decide) (by decide) (by decide)

theorem filesStable_acceptItem (src fu link : String) (st : SyncState) (it : RssItem)
    (h : filesStable st) (hl : stableStr link = true) :
    filesStable (acceptItem src fu st link it) := by
  intro f hf
  rcases List.mem_append.mp hf with h1 | h1
  · exact h f h1
  · rw [List.mem_singleton] at h1
    subst h1
    exact hl

theorem filesStable_processItem (src fu fl : String) (st : SyncState) (it : RssItem)
    (hstable : itemStable fl it = true) (h : filesStable st) :
    filesStable (processItem src fu fl st it) := by
  cases hj : jsOr it.link it.guid with
  | none =>
    rw [processItem_no_link src fu fl st it hj]
    exact h
  | some raw =>
    unfold itemStable at hstable
    rw [hj] at hstable
    rw [processItem_linked src fu fl st it raw hj]
    by_cases hc : st.seenUrls.contains (normalizePostUrl raw (some fl)) = true
    · rw [processLinked_seen src fu fl st raw it hc]
      exact h
    · have hc2 : st.seenUrls.contains (normalizePostUrl raw (some fl)) = false := by
        simpa using hc
      rw [processLinked_new src fu fl st raw it hc2]
      exact filesStable_acceptItem src fu _ st it h hstable

theorem filesStable_foldl_items (src fu fl : String) (items : List RssItem) (st : SyncState)
    (hall : ∀ it ∈ items, itemStable fl it = true) (h : filesStable st) :
    filesStable (items.foldl (processItem src fu fl) st) := by
  induction items generalizing st with
  | nil => exact h
  | cons it t ih =>
    rw [List.foldl_cons]
    exact ih _ (fun x hx => hall x (List.mem_cons_of_mem _ hx))
      (filesStable_processItem src fu fl st it (hall it (List.mem_cons_self _ _)) h)

theorem filesStable_foldl_feeds (src : String) (feeds : List Feed) (st : SyncState)
    (hall : ∀ fd ∈ feeds, ∀ it ∈ fd.items, itemStable (feedLinkOf fd) it = true)
    (h : filesStable st) :
    filesStable (feeds.foldl (processFeed src) st) := by
  induction feeds generalizing st with
  | nil => exact h
  | cons fd t ih =>
    rw [List.foldl_cons]
    exact ih _ (fun x hx => hall x (List.mem_cons_of_mem _ hx))
      (filesStable_foldl_items src fd.url (feedLinkOf fd) fd.items st
        (hall fd (List.mem_cons_self _ _)) h)

theorem filesStable_acceptCand (fu0 normalized cand : String) (st : SyncState)
    (h : filesStable st) (hl : stableStr normalized = true) :
    filesStable (acceptCand fu0 st normalized cand) := by
  intro f hf
  rcases List.mem_append.mp hf with h1 | h1
  · exact h f h1
  · rw [List.mem_singleton] at h1
    subst h1
    exact hl

theorem filesStable_foldl_cands (blogUrl fu0 : String) (cands : List String) (st : SyncState)
    (hall : ∀ c ∈ cands, stableStr (normalizePostUrl c (some blogUrl)) = true)
    (h : filesStable st) :
    filesStable (cands.foldl (processCand blogUrl fu0) st) := by
  induction cands generalizing st with
  | nil => exact h
  | cons c t ih =>
    rw [List.foldl_cons]
    refine ih _ (fun x hx => hall x (List.mem_cons_of_mem _ hx)) ?_
    by_cases hc : st.seenUrls.contains (normalizePostUrl c (some blogUrl)) = true
    · rw [processCand_seen blogUrl fu0 st c hc]
      exact h
    · have hc2 : st.seenUrls.contains (normalizePostUrl c (some blogUrl)) = false := by
        simpa using hc
      rw [processCand_new blogUrl fu0 st c hc2]
      exact filesStable_acceptCand fu0 _ c st h (hall c (List.mem_cons_self _ _))

theorem inputStable_feeds (inp : SyncInput) (h : inputStable inp = true) :
    ∀ fd ∈ inp.feeds, ∀ it ∈ fd.items, itemStable (feedLinkOf fd) it = true := by
  unfold inputStable at h
  rw [Bool.and_eq_true] at h
  intro fd hfd it hit
  have h2 := List.all_eq_true.mp h.1 fd hfd
  unfold feedStable at h2
  exact List.all_eq_true.mp h2 it hit

theorem inputStable_cands (inp : SyncInput) (h : inputStable inp = true)
    (ha : archActive inp = true) :
    ∀ c ∈ inp.archCandidates.getD [],
      stableStr (normalizePostUrl c (some (blogUrlOf inp))) = true := by
  unfold inputStable at h
  rw [Bool.and_eq_true] at h
  have h2 := h.2
  unfold candsStable at h2
  rw [ha] at h2
  rw [Bool.or_eq_true] at h2
  rcases h2 with h3 | h3
  · cases h3
  · exact List.all_eq_true.mp h3

theorem filesStable_runSync (inp : SyncInput) (disk : List (String × PostMeta))
    (h : inputStable inp = true) : filesStable (runSync inp disk) := by
  have hrss : filesStable (rssPhase inp disk) := by
    unfold rssPhase
    exact filesStable_foldl_feeds (sourceOf inp) inp.feeds _
      (inputStable_feeds inp h) (fun f hf => by cases hf)
  unfold runSync
  by_cases ha : archActive inp = true
  · rw [if_pos ha]
    exact filesStable_foldl_cands (blogUrlOf inp) (inp.feedUrls.headD "")
      (inp.archCandidates.getD []) _ (inputStable_cands inp h ha) hrss
  · rw [if_neg ha]
    exact hrss

theorem stableStr_parts (l : String) (h : stableStr l = true) :
    l ≠ "" ∧ normalizePostUrl l none = l := by
  unfold stableStr at h
  rw [Bool.and_eq_true] at h
  exact ⟨by simpa using h.1, by
    have := h.2
    exact eq_of_beq this⟩

theorem seen_sub_hydrate (inp : SyncInput) (disk : List (String × PostMeta))
    (hstable : inputStable inp = true) :
    ∀ x ∈ (runSync inp disk).seenUrls,
      x ∈ hydrateUrls (disk ++ (runSync inp disk).files) := by
  intro x hx
  rcases (SyncInv_runSync inp disk).2.2.2.2.2.2 x hx with h1 | ⟨f, hf, hfl⟩
  · exact hydrateUrls_append_left _ _ x h1
  · obtain ⟨hne, heq⟩ := stableStr_parts f.2.link (filesStable_runSync inp disk hstable f hf)
    have h2 := hydrateUrls_append_right disk (runSync inp disk).files f hf hne
    rw [heq, hfl] at h2
    exact h2

theorem foldl_items_noop (src fu fl : String) (items : List RssItem) (st : SyncState)
    (h : ∀ it ∈ items, ∀ raw, jsOr it.link it.guid = some raw →
      st.seenUrls.contains (normalizePostUrl raw (some fl)) = true) :
    items.foldl (processItem src fu fl) st = st := by
  induction items with
  | nil => rfl
  | cons it t ih =>
    rw [List.foldl_cons]
    have hstep : processItem src fu fl st it = st := by
      cases hj : jsOr it.link it.guid with
      | none => exact processItem_no_link src fu fl st it hj
      | some raw =>
        rw [processItem_linked src fu fl st it raw hj]
        exact processLinked_seen src fu fl st raw it
          (h it (List.mem_cons_self _ _) raw hj)
    rw [hstep]
    exact ih (fun x hx raw hj => h x (List.mem_cons_of_mem _ hx) raw hj)

theorem foldl_feeds_noop (src : String) (feeds : List Feed) (st : SyncState)
    (h : ∀ fd ∈ feeds, ∀ it ∈ fd.items, ∀ raw, jsOr it.link it.guid = some raw →
      st.seenUrls.contains (normalizePostUrl raw (some (feedLinkOf fd))) = true) :
    feeds.foldl (processFeed src) st = st := by
  induction feeds with
  | nil => rfl
  | cons fd t ih =>
    rw [List.foldl_cons]
    have hstep : processFeed src st fd = st :=
      foldl_items_noop src fd.url (feedLinkOf fd) fd.items st
        (fun it hit raw hj => h fd (List.mem_cons_self _ _) it hit raw hj)
    rw [hstep]
    exact ih (fun x hx it hit raw hj => h x (List.mem_cons_of_mem _ hx) it hit raw hj)

theorem foldl_cands_noop (blogUrl fu0 : String) (cands : List String) (st : SyncState)
    (h : ∀ c ∈ cands, st.seenUrls.contains (normalizePostUrl c (some blogUrl)) = true) :
    cands.foldl (processCand blogUrl fu0) st = st := by
  induction cands with
  | nil => rfl
  | cons c t ih =>
    rw [List.foldl_cons]
    have hstep : processCand blogUrl fu0 st c = st :=
      processCand_seen blogUrl fu0 st c (h c (List.mem_cons_self _ _))
    rw [hstep]
    exact ih (fun x hx => h x (List.mem_cons_of_mem _ hx))

theorem runSync_seen_of_rssPhase (inp : SyncInput) (disk : List (String × PostMeta))
    (x : String) (h : x ∈ (rssPhase inp disk).seenUrls) :
    x ∈ (runSync inp disk).seenUrls := by
  unfold runSync
  by_cases ha : archActive inp = true
  · rw [if_pos ha]
    exact foldl_cands_seen_mono (blogUrlOf inp) (inp.feedUrls.headD "")
      (inp.archCandidates.getD []) _ x h
  · rw [if_neg ha]
    exact h

/-- Every item link computed during the RSS phase ends up in the final
seen-URL set of the run. -/
theorem runSync_item_seen (inp : SyncInput) (disk : List (String × PostMeta))
    (fd : Feed) (it : RssItem) (raw : String)
    (hfd : fd ∈ inp.feeds) (hit : it ∈ fd.items) (hj : jsOr it.link it.guid = some raw) :
    normalizePostUrl raw (some (feedLinkOf fd)) ∈ (runSync inp disk).seenUrls :=
  runSync_seen_of_rssPhase inp disk _
    (foldl_feeds_adds (sourceOf inp) inp.feeds _ fd it raw hfd hit hj)

/-- Every archive candidate link ends up in the final seen-URL set when the
archive phase runs. -/
theorem runSync_cand_seen (inp : SyncInput) (disk : List (String × PostMeta))
    (c : String) (hc : c ∈ inp.archCandidates.getD []) (ha : archActive inp = true) :
    normalizePostUrl c (some (blogUrlOf inp)) ∈ (runSync inp disk).seenUrls := by
  unfold runSync
  rw [if_pos ha]
  exact foldl_cands_adds (blogUrlOf inp) (inp.feedUrls.headD "")
    (inp.archCandidates.getD []) _ c hc

/-- C1 amended: a second run over the store left by a first run writes
nothing, provided every link the input produces is stable (truthy and a
fixed point of base-less renormalization).  The second run ends exactly in
its freshly hydrated initial state. -/
theorem sync_idempotent_amended (inp : SyncInput) (disk : List (String × PostMeta))
    (h : inputStable inp = true) :
    (runSync inp (disk ++ (runSync inp disk).files)).files = [] ∧
    (runSync inp (disk ++ (runSync inp disk).files)).writtenRss = 0 ∧
    (runSync inp (disk ++ (runSync inp disk).files)).writtenArchive = 0 := by
  set disk1 := disk ++ (runSync inp disk).files with hdisk1
  have hseen : ∀ x ∈ (runSync inp disk).seenUrls, x ∈ hydrateUrls disk1 :=
    seen_sub_hydrate inp disk h
  have hrss2 : rssPhase inp disk1 = ⟨hydrateUrls disk1, hydrateNames disk1, [], 0, 0⟩ := by
    unfold rssPhase
    apply foldl_feeds_noop
    intro fd hfd it hit raw hj
    have h1 := runSync_item_seen inp disk fd it raw hfd hit hj
    have h2 := hseen _ h1
    simpa using h2
  have hfinal : runSync inp disk1 = ⟨hydrateUrls disk1, hydrateNames disk1, [], 0, 0⟩ := by
    unfold runSync
    rw [hrss2]
    by_cases ha : archActive inp = true
    · rw [if_pos ha]
      apply foldl_cands_noop
      intro c hc
      have h1 := runSync_cand_seen inp disk c hc ha
      have h2 := hseen _ h1
      simpa using h2
    · rw [if_neg ha]
  rw [hfinal]
  exact ⟨rfl, rfl, rfl⟩

/-- C1 counterexample: the second run against the unchanged feed writes a
new file pair (a duplicate of the first run's record, under a suffixed key). -/
theorem sync_not_idempotent_cex :
    (runSync badFeedInput ((runSync badFeedInput []).files)).files ≠ [] ∧
    (runSync badFeedInput []).files.map Prod.fst = ["unknown_t"] ∧
    (runSync badFeedInput ((runSync badFeedInput []).files)).files.map Prod.fst =
      ["unknown_t-1"] ∧
    (runSync badFeedInput ((runSync badFeedInput []).files)).writtenRss = 1 :=
  ⟨by decide, by decide, by decide, by decide⟩

/-- Witness for the amended C1 on a concrete stable input. -/
theorem sync_idempotent_amended_witness :
    inputStable twoHelloInput = true ∧
    (runSync twoHelloInput ([] ++ (runSync twoHelloInput []).files)).files = [] :=
  ⟨by decide, (sync_idempotent_amended twoHelloInput [] (by decide)).1⟩
